import Mathlib

/-!
Verification development for the sudoku solver.

The Rust sources are shallowly embedded:
  * `Cell`, `Board`, the row/column/subsquare views, `views::check`,
    `views::mask`, `views::frequency` from `src/game.rs`;
  * `Board::set`, `Board::check`, `Board::solve_one` (two sequential
    passes: naked singles, then hidden singles), `Board::solve`
    (propagation loop with an iteration bound of 999, i.e. `for _ in
    1..1000`, plus speculative recursion on full board copies);
  * `BitSet` from `src/game/bitset.rs`.

Machine integers (`u16` masks, `usize` bitset data) are represented as
`Nat`; every operation the solver performs on them (`&`, `|`, `^`, `<<`,
`trailing_zeros`, `count_ones`) never wraps for the 9-bit masks that
occur on well-formed boards, so the `Nat` embedding is exact there.
Fallible Rust methods returning `Result<..., String>` become values in
`Except String ...`; since Rust mutates the board through `&mut self`
even on the error path, each embedded operation returns the final board
alongside the `Except` result.
-/

set_option maxRecDepth 4096

deriving instance DecidableEq for Except

namespace Sudoku

/-- The cell of the board: either a committed value or a bit mask of
available options, exactly as the Rust `enum Cell`. -/
inductive Cell where
  | Value : Nat → Cell
  | Options : Nat → Cell
deriving DecidableEq, Repr

/-- The full nine-bit universe `ALL: u16 = (1 << 9) - 1`. -/
def ALL : Nat := (1 <<< 9) - 1

/-- The board: a 9x9 grid of cells.  The Rust `[[Cell; 9]; 9]` array is
embedded as a list of rows; all accesses the solver performs are within
bounds 0..8. -/
structure Board where
  cells : List (List Cell)
deriving DecidableEq, Repr

/-- Read the cell at `(r, c)` (out-of-range reads, which the solver never
performs, return a dummy `Value 0`). -/
def getCell (b : Board) (r c : Nat) : Cell :=
  (b.cells.getD r []).getD c (.Value 0)

/-- Write the cell at `(r, c)`, the raw assignment `self.cells[r][c] = v`. -/
def setRaw (b : Board) (r c : Nat) (v : Cell) : Board :=
  ⟨b.cells.set r ((b.cells.getD r []).set c v)⟩

/-- The `views::Row` iterator: the nine cells of row `r` in column order. -/
def rowCells (b : Board) (r : Nat) : List Cell :=
  (List.range 9).map (fun c => getCell b r c)

/-- The `views::Column` iterator: the nine cells of column `c` in row order. -/
def colCells (b : Board) (c : Nat) : List Cell :=
  (List.range 9).map (fun r => getCell b r c)

/-- The `views::SubSquare` iterator for the block with base row `sr * 3`
and base column `sc * 3`, in the iterator's order (`index / 3`, `index % 3`). -/
def ssCells (b : Board) (sr sc : Nat) : List Cell :=
  (List.range 9).map (fun i => getCell b (sr * 3 + i / 3) (sc * 3 + i % 3))

/-- The duplicate message produced by `views::check`. -/
def multipleMsg (v : Nat) : String := "Multiple " ++ toString v ++ " seen"

/-- The accumulator loop of `views::check`: scan the cells, recording each
fixed value's bit in `mask`, failing on the first repeated bit. -/
def checkGo : List Cell → Nat → Except String Unit
  | [], _ => .ok ()
  | .Value v :: rest, mask =>
      if mask &&& (1 <<< (v - 1)) ≠ 0 then .error (multipleMsg v)
      else checkGo rest (mask ||| (1 <<< (v - 1)))
  | .Options _ :: rest, mask => checkGo rest mask

/-- `views::check`: fail iff a fixed digit repeats in the view. -/
def checkView (l : List Cell) : Except String Unit := checkGo l 0

/-- The accumulator loop of `views::mask`: start from `ALL` and xor out
the bit of every fixed value seen. -/
def maskGo : List Cell → Nat → Nat
  | [], mask => mask
  | .Value v :: rest, mask => maskGo rest (mask ^^^ (1 <<< (v - 1)))
  | .Options _ :: rest, mask => maskGo rest mask

/-- `views::mask`: the availability mask of a view. -/
def maskView (l : List Cell) : Nat := maskGo l ALL

/-- The accumulator loop of `views::frequency`. -/
def freqGo : List Cell → Nat → Nat → Nat
  | [], _, freq => freq
  | .Value v :: rest, value, freq =>
      freqGo rest value (if v = value then freq + 1 else freq)
  | .Options opts :: rest, value, freq =>
      freqGo rest value (if (1 <<< (value - 1)) &&& opts ≠ 0 then freq + 1 else freq)

/-- `views::frequency`: in how many cells of the view `value` either is
fixed or still appears as an option. -/
def freqView (l : List Cell) (value : Nat) : Nat := freqGo l value 0

/-- Sequence a list of checks, propagating the first error (the `?`
operator applied along `Board::check`'s three loops). -/
def seqChecks : List (Except String Unit) → Except String Unit
  | [] => .ok ()
  | .error s :: _ => .error s
  | .ok _ :: rest => seqChecks rest

/-- `Board::check`: validate every row, then every column, then every
subsquare `(idx / 3, idx % 3)`. -/
def Board.check (b : Board) : Except String Unit :=
  seqChecks (((List.range 9).map (fun i => checkView (rowCells b i)))
    ++ ((List.range 9).map (fun i => checkView (colCells b i)))
    ++ ((List.range 9).map (fun i => checkView (ssCells b (i / 3) (i % 3)))))

/-- `Board::set`: assign the cell, then re-validate the whole board.  The
assignment persists even when validation fails (Rust mutates through
`&mut self`), so the updated board is returned alongside the result. -/
def Board.set (b : Board) (r c : Nat) (v : Cell) : Board × Except String Unit :=
  let b' := setRaw b r c v
  (b', b'.check)

/-- Fueled helper for `u16::trailing_zeros`; the fuel is only a structural
termination device, `tzGo n n` computes the true value for every `n ≠ 0`. -/
def tzGo : Nat → Nat → Nat
  | 0, _ => 0
  | fuel + 1, n => if n % 2 = 1 then 0 else tzGo fuel (n / 2) + 1

/-- `trailing_zeros` of a nonzero mask (the solver only applies it to
nonzero masks). -/
def trailingZeros (n : Nat) : Nat := tzGo n n

/-- Fueled helper for `count_ones`. -/
def countOnesGo : Nat → Nat → Nat
  | 0, _ => 0
  | fuel + 1, n => if n = 0 then 0 else n % 2 + countOnesGo fuel (n / 2)

/-- `count_ones`: the number of set bits of a mask. -/
def countOnes (n : Nat) : Nat := countOnesGo n n

/-- The row-major list of the 81 board positions, the iteration order of
every `for ridx in 0..9 { for cidx in 0..9 { ... } }` loop. -/
def rcList : List (Nat × Nat) :=
  (List.range 9).flatMap (fun r => (List.range 9).map (fun c => (r, c)))

/-- The contradiction message of the naked-single pass. -/
def noRemainingMsg (r c : Nat) : String :=
  "There are no remaining options for " ++ toString r ++ ", " ++ toString c

/-- The exclusion mask the naked-single pass intersects a cell's options
with: the conjunction of the row, column and subsquare availability
masks, exactly as in `Board::solve_one`. -/
def exclMask (b : Board) (r c : Nat) : Nat :=
  maskView (rowCells b r) &&& maskView (colCells b c) &&& maskView (ssCells b (r / 3) (c / 3))

/-- The first loop of `Board::solve_one` (naked singles): narrow every
`Options` cell by the live exclusion mask; fail on an empty result; fix
the cell when a single option remains; otherwise keep the narrowed set,
counting the cell and recording whether it shrank.  Each `self.set(..)?`
of the Rust source appears as its definition, the raw assignment
followed by a whole-board re-validation whose error is propagated (the
assignment persists either way). -/
def pass1 : List (Nat × Nat) → Board → Nat → Bool → Board × Except String (Nat × Bool)
  | [], b, options, changed => (b, .ok (options, changed))
  | (r, c) :: rest, b, options, changed =>
      match getCell b r c with
      | .Value _ => pass1 rest b options changed
      | .Options og =>
          let opts := og &&& exclMask b r c
          if opts = 0 then (b, .error (noRemainingMsg r c))
          else if opts &&& (opts - 1) = 0 then
            let b' := setRaw b r c (.Value (trailingZeros opts + 1))
            match b'.check with
            | .error s => (b', .error s)
            | .ok _ => pass1 rest b' options true
          else
            let b' := setRaw b r c (.Options opts)
            match b'.check with
            | .error s => (b', .error s)
            | .ok _ => pass1 rest b' (options + 1) (changed || (og != opts))

/-- Fueled helper for the hidden-single scan of one cell (the inner
`while shifter != 0` loop of `Board::solve_one`): return the first digit,
counting up from `value`, whose bit is set in `shifter` and whose
frequency in the cell's row, column or subsquare is exactly one. -/
def hiddenGo (b : Board) (r c : Nat) : Nat → Nat → Nat → Option Nat
  | 0, _, _ => none
  | fuel + 1, value, shifter =>
      if shifter = 0 then none
      else if shifter % 2 = 1 ∧ (freqView (rowCells b r) value = 1 ∨
            freqView (colCells b c) value = 1 ∨
            freqView (ssCells b (r / 3) (c / 3)) value = 1)
      then some value
      else hiddenGo b r c fuel (value + 1) (shifter / 2)

/-- The hidden-single scan of one `Options` cell, starting from digit 1. -/
def hiddenFind (b : Board) (r c opts : Nat) : Option Nat :=
  hiddenGo b r c opts 1 opts

/-- The second loop of `Board::solve_one` (hidden singles): fix every
`Options` cell that is the only possible holder of one of its digits,
decrementing the open-cell count. -/
def pass2 : List (Nat × Nat) → Board → Nat → Bool → Board × Except String (Nat × Bool)
  | [], b, options, changed => (b, .ok (options, changed))
  | (r, c) :: rest, b, options, changed =>
      match getCell b r c with
      | .Value _ => pass2 rest b options changed
      | .Options opts =>
          match hiddenFind b r c opts with
          | none => pass2 rest b options changed
          | some value =>
              let b' := setRaw b r c (.Value value)
              match b'.check with
              | .error s => (b', .error s)
              | .ok _ => pass2 rest b' (options - 1) true

/-- `Board::solve_one`: the naked-single pass, a re-validation, the
hidden-single pass, and a final re-validation. -/
def solveOne (b : Board) : Board × Except String (Nat × Bool) :=
  match pass1 rcList b 0 false with
  | (b1, .error s) => (b1, .error s)
  | (b1, .ok (options, changed)) =>
      match b1.check with
      | .error s => (b1, .error s)
      | .ok _ =>
          match pass2 rcList b1 options changed with
          | (b2, .error s) => (b2, .error s)
          | (b2, .ok oc) =>
              match b2.check with
              | .error s => (b2, .error s)
              | .ok _ => (b2, .ok oc)

/-- Whether a cell is still an `Options` cell. -/
def Cell.isOptions : Cell → Bool
  | .Options _ => true
  | .Value _ => false

/-- The number of `Options` cells on the board. -/
def optionsCount (b : Board) : Nat :=
  rcList.countP (fun rc => (getCell b rc.1 rc.2).isOptions)

/-- One step of the branch-selection scan of `Board::solve`: replace the
recorded candidate whenever the scanned cell is an `Options` cell whose
`count_ones` is at most the recorded count. -/
def pickStep (b : Board) (acc : Nat × Nat × Nat) (rc : Nat × Nat) : Nat × Nat × Nat :=
  match getCell b rc.1 rc.2 with
  | .Options opts =>
      if countOnes opts ≤ acc.2.2 then (rc.1, rc.2, countOnes opts) else acc
  | .Value _ => acc

/-- The branch-selection scan of `Board::solve`: fold `pickStep` over the
81 cells in row-major order, starting from `(0, 0, 9)`. -/
def pickBranch (b : Board) : Nat × Nat × Nat :=
  rcList.foldl (pickStep b) (0, 0, 9)

/-- The non-convergence message of `Board::solve`. -/
def nonConvergenceMsg : String := "Solution did not close in 1000 iterations"

/-- The exhausted-branches message of `Board::solve`. -/
def allOptionsFailMsg : String := "All options lead to failure!"

/-- The bit set of `src/game/bitset.rs`: indices stored as the bits of a
machine word (`usize`, embedded as `Nat`). -/
structure BitSet where
  data : Nat
deriving DecidableEq, Repr

namespace BitSet

/-- `BitSet::empty`: whether no bit is set. -/
def empty (s : BitSet) : Bool := s.data == 0

/-- `BitSet::count`: `data.count_ones()`. -/
def count (s : BitSet) : Nat := countOnes s.data

/-- `BitSet::singleton`: the sole element if exactly one bit is set,
otherwise `none` (`data == 0`, or `data & (data - 1) != 0`). -/
def singleton (s : BitSet) : Option Nat :=
  if s.data = 0 then none
  else if s.data &&& (s.data - 1) ≠ 0 then none
  else some (trailingZeros s.data)

/-- `BitSet::has`: whether the bit of `value` is set. -/
def has (s : BitSet) (value : Nat) : Bool := s.data &&& (1 <<< value) != 0

/-- `BitSet::set`: add one value. -/
def set (s : BitSet) (value : Nat) : BitSet := ⟨s.data ||| (1 <<< value)⟩

/-- `BitSet::unset`: remove one value (`data & !(1 << value)`, embedded
without the wrap-around of two's complement as clearing the bit). -/
def unset (s : BitSet) (value : Nat) : BitSet :=
  ⟨if s.data &&& (1 <<< value) ≠ 0 then s.data - (1 <<< value) else s.data⟩

/-- `BitSet::intersect`. -/
def intersect (s other : BitSet) : BitSet := ⟨s.data &&& other.data⟩

/-- `BitSet::union`. -/
def union (s other : BitSet) : BitSet := ⟨s.data ||| other.data⟩

/-- `BitSet::new`: fold `set` over the given values. -/
def new (values : List Nat) : BitSet := values.foldl (fun bs v => bs.set v) ⟨0⟩

end BitSet

/-- Modelled from the spec: the repository's `src/` exposes no
constructor taking a raw 9x9 array of integers 0..9 (boards are written
directly as struct literals of `Cell` values); section 6 of the spec
describes such a constructor, modelled here.  The cell built from one
raw value: zero becomes `Candidates` over the full universe, a nonzero
value becomes `Fixed`. -/
def buildCell (v : Nat) : Cell := if v = 0 then .Options ALL else .Value v

/-- Modelled from the spec: the board assembled from a 9x9 array of raw
values via `buildCell`. -/
def buildBoard (input : List (List Nat)) : Board :=
  ⟨(List.range 9).map (fun r =>
    (List.range 9).map (fun c => buildCell ((input.getD r []).getD c 0)))⟩

/-- Modelled from the spec: the constructor's error message naming the
offending row, column and value. -/
def inputErrMsg (r c v : Nat) : String :=
  "value " ++ toString v ++ " at row " ++ toString r ++ ", column " ++ toString c ++
    " exceeds 9"

/-- Modelled from the spec: the first raw value above 9, scanning the
input in row-major order. -/
def badEntry (input : List (List Nat)) : Option (Nat × Nat × Nat) :=
  rcList.findSome? (fun rc =>
    let v := (input.getD rc.1 []).getD rc.2 0
    if 9 < v then some (rc.1, rc.2, v) else none)

/-- Modelled from the spec: the Board constructor on a 9x9 array of raw
integers; rejects any value above 9 with a described error, otherwise
builds the board and validates the initial placements. -/
def fromInput (input : List (List Nat)) : Except String Board :=
  match badEntry input with
  | some (r, c, v) => .error (inputErrMsg r c v)
  | none =>
      match (buildBoard input).check with
      | .error s => .error s
      | .ok _ => .ok (buildBoard input)

/-- A list update beyond the end of the list is a no-op. -/
def listSet_oob : ∀ {α : Type} (l : List α) (n : Nat) (a : α),
    l.length ≤ n → l.set n a = l := by
  intro α l
  induction l with
  | nil => intro n a _; rfl
  | cons x xs ih =>
      intro n a h
      match n with
      | 0 => simp at h
      | n + 1 => simp only [List.set]; rw [ih n a (by simpa using h)]

/-- Updating a list position with the element already stored there is a
no-op. -/
def listSet_self : ∀ {α : Type} (l : List α) (n : Nat) (a : α),
    l[n]? = some a → l.set n a = l := by
  intro α l
  induction l with
  | nil => intro n a h; simp at h
  | cons x xs ih =>
      intro n a h
      match n with
      | 0 => simp_all
      | n + 1 => simp only [List.set]; rw [ih n a (by simpa using h)]

/-- A read that produces an `Options` cell certifies that both indices
are within the stored lists (the dummy default is a `Value`). -/
def isOptions_inRange : ∀ (b : Board) (r c : Nat),
    (getCell b r c).isOptions = true →
    r < b.cells.length ∧ c < (b.cells.getD r []).length := by
  intro b r c h
  by_cases hr : r < b.cells.length
  · refine ⟨hr, ?_⟩
    by_cases hc : c < (b.cells.getD r []).length
    · exact hc
    · exfalso
      rw [getCell, List.getD_eq_getElem?_getD (b.cells.getD r []),
        List.getElem?_eq_none (by omega)] at h
      simp [Cell.isOptions] at h
  · exfalso
    rw [getCell, List.getD_eq_getElem?_getD b.cells r,
      List.getElem?_eq_none (by omega)] at h
    simp [List.getD, Cell.isOptions] at h

/-- Writing a cell of a row that does not exist is a no-op. -/
def setRaw_row_oob : ∀ (b : Board) (r c : Nat) (v : Cell),
    b.cells.length ≤ r → setRaw b r c v = b := by
  intro b r c v hr
  rw [setRaw, listSet_oob b.cells r _ hr]

/-- The updated row of an in-range write. -/
def setRaw_row_self : ∀ (b : Board) (r c : Nat) (v : Cell),
    r < b.cells.length →
    (setRaw b r c v).cells.getD r [] = (b.cells.getD r []).set c v := by
  intro b r c v hr
  rw [setRaw]
  simp only
  rw [List.getD_eq_getElem?_getD, List.getElem?_set_self hr, Option.getD_some]

/-- Rows other than the written one are unchanged. -/
def setRaw_row_ne : ∀ (b : Board) (r c : Nat) (v : Cell) (r' : Nat),
    r' ≠ r → (setRaw b r c v).cells.getD r' [] = b.cells.getD r' [] := by
  intro b r c v r' hne
  rw [setRaw]
  simp only
  rw [List.getD_eq_getElem?_getD, List.getElem?_set_ne (fun h => hne h.symm),
    ← List.getD_eq_getElem?_getD]

/-- Writing inside the stored lists makes the written cell readable. -/
def getCell_setRaw_eq : ∀ (b : Board) (r c : Nat) (v : Cell),
    r < b.cells.length → c < (b.cells.getD r []).length →
    getCell (setRaw b r c v) r c = v := by
  intro b r c v hr hc
  rw [getCell, setRaw_row_self b r c v hr, List.getD_eq_getElem?_getD,
    List.getElem?_set_self hc, Option.getD_some]

/-- Writing one cell leaves every other position unchanged. -/
def getCell_setRaw_ne : ∀ (b : Board) (r c : Nat) (v : Cell) (r' c' : Nat),
    r' ≠ r ∨ c' ≠ c → getCell (setRaw b r c v) r' c' = getCell b r' c' := by
  intro b r c v r' c' h
  by_cases hrr : r' = r
  · have hcc : c' ≠ c := by tauto
    by_cases hr : r < b.cells.length
    · rw [getCell, hrr, setRaw_row_self b r c v hr, getCell,
        List.getD_eq_getElem?_getD, List.getElem?_set_ne (fun hx => hcc hx.symm),
        ← List.getD_eq_getElem?_getD]
    · rw [setRaw_row_oob b r c v (by omega)]
  · rw [getCell, setRaw_row_ne b r c v r' hrr, getCell]

/-- Writing back the cell already stored at an in-range position leaves
the board unchanged. -/
def setRaw_self : ∀ (b : Board) (r c : Nat),
    r < b.cells.length → c < (b.cells.getD r []).length →
    setRaw b r c (getCell b r c) = b := by
  intro b r c hr hc
  rw [setRaw, getCell]
  have hrow : (b.cells.getD r []).set c ((b.cells.getD r []).getD c (.Value 0)) =
      b.cells.getD r [] := by
    apply listSet_self
    rw [List.getElem?_eq_getElem hc,
      List.getD_eq_getElem?_getD (b.cells.getD r []) c, List.getElem?_eq_getElem hc,
      Option.getD_some]
  rw [hrow]
  have hcells : b.cells.set r (b.cells.getD r []) = b.cells := by
    apply listSet_self
    rw [List.getElem?_eq_getElem hr, List.getD_eq_getElem?_getD b.cells r,
      List.getElem?_eq_getElem hr, Option.getD_some]
  rw [hcells]

/-- Writing outside the stored lists (in either coordinate) is a no-op. -/
def setRaw_oob : ∀ (b : Board) (r c : Nat) (v : Cell),
    ¬(r < b.cells.length ∧ c < (b.cells.getD r []).length) → setRaw b r c v = b := by
  intro b r c v h
  by_cases hr : r < b.cells.length
  · have hc : ¬ c < (b.cells.getD r []).length := by tauto
    rw [setRaw, listSet_oob _ c _ (by omega)]
    have hcells : b.cells.set r (b.cells.getD r []) = b.cells := by
      apply listSet_self
      rw [List.getElem?_eq_getElem hr, List.getD_eq_getElem?_getD b.cells r,
        List.getElem?_eq_getElem hr, Option.getD_some]
    rw [hcells]
  · exact setRaw_row_oob b r c v (by omega)

/-- A pair differs from `(r, c)` in at least one coordinate. -/
def pair_ne_split : ∀ (x : Nat × Nat) (r c : Nat),
    x ≠ (r, c) → x.1 ≠ r ∨ x.2 ≠ c := by
  intro x r c h
  by_contra hcon
  push_neg at hcon
  obtain ⟨x1, x2⟩ := x
  exact h (by simp_all)

/-- Fixing a cell to a `Value` never increases the `Options` cell count. -/
def optionsCount_setValue_le : ∀ (b : Board) (r c v : Nat),
    optionsCount (setRaw b r c (.Value v)) ≤ optionsCount b := by
  intro b r c v
  apply List.countP_mono_left
  intro rc _ h
  by_cases hx : rc.1 = r ∧ rc.2 = c
  · by_cases hin : r < b.cells.length ∧ c < (b.cells.getD r []).length
    · rw [hx.1, hx.2, getCell_setRaw_eq b r c _ hin.1 hin.2] at h
      simp [Cell.isOptions] at h
    · rw [setRaw_oob b r c _ hin] at h
      exact h
  · rw [getCell_setRaw_ne b r c _ rc.1 rc.2 (by tauto)] at h
    exact h

/-- Narrowing an `Options` cell to another `Options` mask never increases
the `Options` cell count. -/
def optionsCount_setOptions_le : ∀ (b : Board) (r c o : Nat),
    (getCell b r c).isOptions = true →
    optionsCount (setRaw b r c (.Options o)) ≤ optionsCount b := by
  intro b r c o ho
  apply List.countP_mono_left
  intro rc _ h
  by_cases hx : rc.1 = r ∧ rc.2 = c
  · rw [hx.1, hx.2]
    exact ho
  · rw [getCell_setRaw_ne b r c _ rc.1 rc.2 (by tauto)] at h
    exact h

/-- The naked-single pass never increases the `Options` cell count, on
the success and the error path alike. -/
def pass1_optionsCount_le : ∀ (l : List (Nat × Nat)) (b : Board) (o : Nat) (ch : Bool),
    optionsCount (pass1 l b o ch).1 ≤ optionsCount b := by
  intro l
  induction l with
  | nil => intro b o ch; simp [pass1]
  | cons rc rest ih =>
      intro b o ch
      obtain ⟨r, c⟩ := rc
      simp only [pass1]
      split
      · exact ih b o ch
      · next og heq =>
          have hopt : (getCell b r c).isOptions = true := by
            rw [heq]; rfl
          split
          · exact Nat.le_refl _
          · split
            · split
              · exact optionsCount_setValue_le b r c _
              · exact Nat.le_trans (ih _ o true) (optionsCount_setValue_le b r c _)
            · split
              · exact optionsCount_setOptions_le b r c _ hopt
              · exact Nat.le_trans (ih _ (o + 1) _)
                  (optionsCount_setOptions_le b r c _ hopt)

/-- The hidden-single pass never increases the `Options` cell count. -/
def pass2_optionsCount_le : ∀ (l : List (Nat × Nat)) (b : Board) (o : Nat) (ch : Bool),
    optionsCount (pass2 l b o ch).1 ≤ optionsCount b := by
  intro l
  induction l with
  | nil => intro b o ch; simp [pass2]
  | cons rc rest ih =>
      intro b o ch
      obtain ⟨r, c⟩ := rc
      simp only [pass2]
      split
      · exact ih b o ch
      · split
        · exact ih b o ch
        · split
          · exact optionsCount_setValue_le b r c _
          · exact Nat.le_trans (ih _ _ true) (optionsCount_setValue_le b r c _)

/-- One whole propagation sweep never increases the `Options` cell count. -/
def solveOne_optionsCount_le : ∀ (b : Board),
    optionsCount (solveOne b).1 ≤ optionsCount b := by
  intro b
  rw [solveOne]
  split
  · next b1 s h1 =>
      have : b1 = (pass1 rcList b 0 false).1 := by rw [h1]
      rw [this]
      exact pass1_optionsCount_le rcList b 0 false
  · next b1 options changed h1 =>
      have hb1 : optionsCount b1 ≤ optionsCount b := by
        have : b1 = (pass1 rcList b 0 false).1 := by rw [h1]
        rw [this]
        exact pass1_optionsCount_le rcList b 0 false
      split
      · exact hb1
      · split
        · next b2 s h2 =>
            have : b2 = (pass2 rcList b1 options changed).1 := by rw [h2]
            rw [this]
            exact Nat.le_trans (pass2_optionsCount_le rcList b1 options changed) hb1
        · next b2 oc h2 =>
            have hb2 : optionsCount b2 ≤ optionsCount b1 := by
              have : b2 = (pass2 rcList b1 options changed).1 := by rw [h2]
              rw [this]
              exact pass2_optionsCount_le rcList b1 options changed
            split
            · exact Nat.le_trans hb2 hb1
            · exact Nat.le_trans hb2 hb1

/-- The row-major position list visits no position twice. -/
def rcList_nodup : rcList.Nodup := by decide

/-- Membership in the row-major position list. -/
def mem_rcList : ∀ (r c : Nat), (r, c) ∈ rcList ↔ r < 9 ∧ c < 9 := by
  intro r c
  simp only [rcList, List.mem_flatMap, List.mem_map, List.mem_range]
  constructor
  · rintro ⟨a, ha, b, hb, hab⟩
    obtain ⟨h1, h2⟩ := Prod.mk.injEq .. ▸ hab
    omega
  · rintro ⟨h1, h2⟩
    exact ⟨r, h1, c, h2, rfl⟩

/-- Fixing an in-bounds `Options` cell strictly decreases the `Options`
cell count. -/
def optionsCount_setValue_lt : ∀ (b : Board) (r c v : Nat),
    r < 9 → c < 9 → (getCell b r c).isOptions = true →
    optionsCount (setRaw b r c (.Value v)) < optionsCount b := by
  intro b r c v hr hc ho
  have hmem : (r, c) ∈ rcList := (mem_rcList r c).mpr ⟨hr, hc⟩
  obtain ⟨s, t, hst⟩ := List.append_of_mem hmem
  have hnd := rcList_nodup
  rw [hst, List.nodup_append] at hnd
  obtain ⟨hs, hct, hdisj⟩ := hnd
  have hnotint : (r, c) ∉ t := (List.nodup_cons.mp hct).1
  have hnotins : (r, c) ∉ s := fun hmm => (hdisj hmm) (List.mem_cons_self _ _)
  have hin := isOptions_inRange b r c ho
  unfold optionsCount
  rw [hst, List.countP_append, List.countP_append, List.countP_cons, List.countP_cons]
  have hcongr : ∀ (u : List (Nat × Nat)), (r, c) ∉ u →
      (u.countP fun rc => (getCell (setRaw b r c (.Value v)) rc.1 rc.2).isOptions) =
      (u.countP fun rc => (getCell b rc.1 rc.2).isOptions) := by
    intro u hu
    apply List.countP_congr
    intro x hx
    have hxne : x ≠ (r, c) := fun hxx => hu (hxx ▸ hx)
    rw [getCell_setRaw_ne b r c _ x.1 x.2 (pair_ne_split x r c hxne)]
  rw [hcongr s hnotins, hcongr t hnotint]
  have hnew : (getCell (setRaw b r c (.Value v)) (r, c).1 (r, c).2).isOptions = false := by
    simp only
    rw [getCell_setRaw_eq b r c _ hin.1 hin.2]
    rfl
  rw [hnew]
  simp only [ho]
  rw [if_neg Bool.false_ne_true, if_pos trivial]
  omega

/-- The branch-selection fold keeps both coordinates inside the board
whenever the scanned positions and the accumulator do. -/
def pickFold_bounds : ∀ (b : Board) (l : List (Nat × Nat)) (acc : Nat × Nat × Nat),
    (∀ rc ∈ l, rc.1 < 9 ∧ rc.2 < 9) → acc.1 < 9 ∧ acc.2.1 < 9 →
    (List.foldl (pickStep b) acc l).1 < 9 ∧ (List.foldl (pickStep b) acc l).2.1 < 9 := by
  intro b l
  induction l with
  | nil => intro acc _ h; simpa using h
  | cons rc rest ih =>
      intro acc hl h
      rw [List.foldl_cons]
      apply ih
      · intro x hx
        exact hl x (List.mem_cons_of_mem _ hx)
      · rw [pickStep]
        split
        · split
          · exact hl rc (List.mem_cons_self _ _)
          · exact h
        · exact h

/-- The cell chosen by the branch-selection scan is inside the board. -/
def pickBranch_lt : ∀ (b : Board), (pickBranch b).1 < 9 ∧ (pickBranch b).2.1 < 9 := by
  intro b
  apply pickFold_bounds
  · decide
  · exact ⟨by decide, by decide⟩

/-- A strict drop in the first component gives a lexicographic drop on
measure triples. -/
def lex3Lt : ∀ {a1 b1 c1 a2 b2 c2 : Nat}, a1 < a2 →
    Prod.Lex (· < ·) (Prod.Lex (· < ·) (· < ·)) (a1, b1, c1) (a2, b2, c2) :=
  fun h => Prod.Lex.left _ _ h

/-- A non-increase in the first component and a strict drop in the second
give a lexicographic drop on measure triples. -/
def lex3LeMid : ∀ {a1 b1 c1 a2 b2 c2 : Nat}, a1 ≤ a2 → b1 < b2 →
    Prod.Lex (· < ·) (Prod.Lex (· < ·) (· < ·)) (a1, b1, c1) (a2, b2, c2) := by
  intro a1 b1 c1 a2 b2 c2 hle hlt
  rcases Nat.lt_or_ge a1 a2 with h | h
  · exact Prod.Lex.left _ _ h
  · have heq : a1 = a2 := by omega
    subst heq
    exact Prod.Lex.right _ (Prod.Lex.left _ _ hlt)

/-- A strict drop in the last component gives a lexicographic drop on
measure triples. -/
def lex3Last : ∀ {a b c1 c2 : Nat}, c1 < c2 →
    Prod.Lex (· < ·) (Prod.Lex (· < ·) (· < ·)) (a, b, c1) (a, b, c2) :=
  fun h => Prod.Lex.right _ (Prod.Lex.right _ h)

mutual

/-- The iteration loop of `Board::solve` (`for _ in 1..1000`, which runs
the body at most 999 times): run one propagation sweep; succeed once no
open cells remain; keep sweeping while the sweep reports a change;
otherwise pick the branch cell chosen by the row-major minimum-count
scan and speculate on it.  Exhausting the iteration budget produces the
non-convergence error.  Termination of the mutual recursion is by the
strictly decreasing `Options` cell count of the speculated copies. -/
def solveLoop : Nat → Board → Board × Except String Unit
  | 0, b => (b, .error nonConvergenceMsg)
  | fuel + 1, b =>
      match h1 : solveOne b with
      | (b', .error s) => (b', .error s)
      | (b', .ok (options, changed)) =>
          if options = 0 then (b', .ok ())
          else if changed then solveLoop fuel b'
          else
            match h2 : getCell b' (pickBranch b').1 (pickBranch b').2.1 with
            | .Options opts =>
                speculate b' (pickBranch b').1 (pickBranch b').2.1 1 opts
                  (pickBranch_lt b').1 (pickBranch_lt b').2 (by rw [h2]; rfl)
            | .Value _ => solveLoop fuel b'
termination_by fuel b => (optionsCount b, fuel, 0)
decreasing_by
  · have hle : optionsCount b' ≤ optionsCount b := by
      have hfst : (solveOne b).1 = b' := congrArg Prod.fst h1
      rw [← hfst]
      exact solveOne_optionsCount_le b
    exact lex3LeMid hle (Nat.lt_succ_self fuel)
  · have hle : optionsCount b' ≤ optionsCount b := by
      have hfst : (solveOne b).1 = b' := congrArg Prod.fst h1
      rw [← hfst]
      exact solveOne_optionsCount_le b
    exact lex3LeMid hle (Nat.succ_pos fuel)
  · have hle : optionsCount b' ≤ optionsCount b := by
      have hfst : (solveOne b).1 = b' := congrArg Prod.fst h1
      rw [← hfst]
      exact solveOne_optionsCount_le b
    exact lex3LeMid hle (Nat.lt_succ_self fuel)

/-- The speculative loop of `Board::solve`: for each set bit of `shifter`
(digits counting up from `value`, so in ascending digit order), copy the
board, `set` the branch cell to the digit in the copy (the raw
assignment plus re-validation, whose error is propagated out), solve the
copy recursively, adopt the first successful copy's cells, and fail with
the exhausted-branches error once no bit is left.  The three proof
arguments only certify termination: the branch cell is an in-bounds
`Options` cell, so fixing it strictly shrinks the open-cell count. -/
def speculate (b : Board) (r c value shifter : Nat) (hr : r < 9) (hc : c < 9)
    (ho : (getCell b r c).isOptions = true) : Board × Except String Unit :=
  if hsh : shifter = 0 then (b, .error allOptionsFailMsg)
  else if shifter % 2 = 1 then
    let spec0 := setRaw b r c (.Value value)
    match spec0.check with
    | .error s => (b, .error s)
    | .ok _ =>
        match solve spec0 with
        | (spec', .ok _) => (spec', .ok ())
        | (_, .error _) => speculate b r c (value + 1) (shifter / 2) hr hc ho
  else speculate b r c (value + 1) (shifter / 2) hr hc ho
termination_by (optionsCount b, 0, shifter)
decreasing_by
  · exact lex3Lt (optionsCount_setValue_lt b r c value hr hc ho)
  · exact lex3Last (Nat.div_lt_self (Nat.pos_of_ne_zero hsh) Nat.one_lt_two)
  · exact lex3Last (Nat.div_lt_self (Nat.pos_of_ne_zero hsh) Nat.one_lt_two)

/-- `Board::solve`: the bounded propagation loop entered with 999
available iterations. -/
def solve (b : Board) : Board × Except String Unit := solveLoop 999 b
termination_by (optionsCount b, 1003, 0)
decreasing_by
  · exact lex3LeMid (Nat.le_refl _) (by omega)

end

/-- A cell whose fixed digit, if any, lies in 1..9 (the digit invariant
that every board representable in the Rust program's intended input
domain satisfies; the `u8` arithmetic of the source is exact on it). -/
def cellDigitOk : Cell → Bool
  | .Value v => 1 ≤ v && v ≤ 9
  | .Options _ => true

/-- A board whose fixed cells all hold digits 1..9. -/
def WfDigits (b : Board) : Prop :=
  ∀ rc ∈ rcList, cellDigitOk (getCell b rc.1 rc.2) = true

/-- The fixed digits of a view, in view order. -/
def valuesOf (l : List Cell) : List Nat :=
  l.filterMap (fun cell => match cell with
    | .Value v => some v
    | .Options _ => none)

/-- The trace of `views::check` on the list of fixed digits alone (the
scan ignores `Options` cells, so it factors through `valuesOf`). -/
def checkVals : List Nat → Nat → Except String Unit
  | [], _ => .ok ()
  | v :: rest, mask =>
      if mask &&& (1 <<< (v - 1)) ≠ 0 then .error (multipleMsg v)
      else checkVals rest (mask ||| (1 <<< (v - 1)))

/-- The trace of `views::mask` on the list of fixed digits alone. -/
def maskVals : List Nat → Nat → Nat
  | [], mask => mask
  | v :: rest, mask => maskVals rest (mask ^^^ (1 <<< (v - 1)))

/-- One cell refines another: a fixed cell persists unchanged, an options
cell may shrink its mask or be fixed to one of its member digits. -/
def cellLe : Cell → Cell → Prop
  | .Value v, .Value w => w = v
  | .Options og, .Value d => (og &&& (1 <<< (d - 1))) ≠ 0
  | .Options og, .Options o' => o' &&& og = o'
  | .Value _, .Options _ => False

/-- A board refines another cell by cell (first the before-board, then
the after-board). -/
def boardRefines (b b' : Board) : Prop :=
  ∀ r c : Nat, cellLe (getCell b r c) (getCell b' r c)

/-- The digits encoded by the bits of `shifter`, starting the count at
`value`, in ascending order (the digits the `while shifter != 0` loops
of `Board::solve` walk through). -/
def bitDigits : Nat → Nat → List Nat
  | _, 0 => []
  | value, shifter + 1 =>
      (if (shifter + 1) % 2 = 1 then [value] else []) ++
        bitDigits (value + 1) ((shifter + 1) / 2)
decreasing_by omega

/-- The speculative search as the spec states it: walk the candidate
digits in ascending order; for each, copy the board, `set` the branch
cell to the digit in the copy (propagating a validation error from the
`set`), recursively solve the copy; adopt the first successful copy and
stop; fail with the exhausted-branches error when the digits run out. -/
def speculateSpec (b : Board) (r c : Nat) : List Nat → Board × Except String Unit
  | [] => (b, .error allOptionsFailMsg)
  | d :: ds =>
      let spec0 := setRaw b r c (.Value d)
      match spec0.check with
      | .error s => (b, .error s)
      | .ok _ =>
          match solve spec0 with
          | (spec', .ok _) => (spec', .ok ())
          | (_, .error _) => speculateSpec b r c ds

/-- The all-blank board: every cell holds the full candidate universe. -/
def allBlank : Board := ⟨List.replicate 9 (List.replicate 9 (.Options ALL))⟩

/-- A board whose only conflict is a duplicated fixed 1 inside row 0. -/
def dupInRow0 : Board :=
  ⟨[.Value 1, .Value 1, .Options ALL, .Options ALL, .Options ALL, .Options ALL,
      .Options ALL, .Options ALL, .Options ALL] ::
    List.replicate 8 (List.replicate 9 (.Options ALL))⟩

/-- A board whose only conflict is a duplicated fixed 1 inside row 5. -/
def dupInRow5 : Board :=
  ⟨List.replicate 5 (List.replicate 9 (.Options ALL)) ++
    [.Value 1, .Value 1, .Options ALL, .Options ALL, .Options ALL, .Options ALL,
      .Options ALL, .Options ALL, .Options ALL] ::
    List.replicate 3 (List.replicate 9 (.Options ALL))⟩

/-- Whether some view of the board (row, column or block) contains the
digit `v` in two fixed cells. -/
def dupDigitSomewhere (b : Board) (v : Nat) : Prop :=
  (∃ i ∈ List.range 9, 2 ≤ (valuesOf (rowCells b i)).count v) ∨
  (∃ i ∈ List.range 9, 2 ≤ (valuesOf (colCells b i)).count v) ∨
  (∃ i ∈ List.range 9, 2 ≤ (valuesOf (ssCells b (i / 3) (i % 3))).count v)

/-- Whether every view of the board is free of duplicated fixed digits. -/
def noDups (b : Board) : Prop :=
  (∀ i ∈ List.range 9, (valuesOf (rowCells b i)).Nodup) ∧
  (∀ i ∈ List.range 9, (valuesOf (colCells b i)).Nodup) ∧
  (∀ i ∈ List.range 9, (valuesOf (ssCells b (i / 3) (i % 3))).Nodup)

/-- The digit `d` is fixed somewhere in row `r`, column `c`, or the block
containing `(r, c)`. -/
def fixedInViews (b : Board) (r c d : Nat) : Prop :=
  d ∈ valuesOf (rowCells b r) ∨ d ∈ valuesOf (colCells b c) ∨
    d ∈ valuesOf (ssCells b (r / 3) (c / 3))

/-- The 9x9 raw input whose only cell is row 2, column 3 holding 4 (used
to exercise the spec-modelled constructor). -/
def sampleInput : List (List Nat) :=
  List.replicate 2 (List.replicate 9 0) ++
    [[0, 0, 0, 4, 0, 0, 0, 0, 0]] ++ List.replicate 6 (List.replicate 9 0)

/-- A 9x9 raw input holding an out-of-range value 12 at row 1, column 2. -/
def badInput : List (List Nat) :=
  [List.replicate 9 0, [0, 0, 12, 0, 0, 0, 0, 0, 0]] ++
    List.replicate 7 (List.replicate 9 0)

/-- A 9x9 raw input that violates uniqueness: two 7s in column 0. -/
def conflictInput : List (List Nat) :=
  [[7, 0, 0, 0, 0, 0, 0, 0, 0], [7, 0, 0, 0, 0, 0, 0, 0, 0]] ++
    List.replicate 7 (List.replicate 9 0)

/-- A board on which the solver stalls: a completed grid with a deadly
rectangle blanked out — cells (0,0), (0,1), (3,0) and (3,1) each hold
exactly the candidates 1 and 2 (mask `0b11`), and neither the naked- nor
the hidden-single pass can make progress on them. -/
def stall4 : Board :=
  ⟨[[.Options 3, .Options 3, .Value 3, .Value 4, .Value 5, .Value 6, .Value 7, .Value 8,
      .Value 9],
    [.Value 4, .Value 5, .Value 6, .Value 7, .Value 8, .Value 9, .Value 1, .Value 2, .Value 3],
    [.Value 7, .Value 8, .Value 9, .Value 1, .Value 2, .Value 3, .Value 4, .Value 5, .Value 6],
    [.Options 3, .Options 3, .Value 4, .Value 3, .Value 6, .Value 5, .Value 8, .Value 9,
      .Value 7],
    [.Value 3, .Value 6, .Value 5, .Value 8, .Value 9, .Value 7, .Value 2, .Value 1, .Value 4],
    [.Value 8, .Value 9, .Value 7, .Value 2, .Value 1, .Value 4, .Value 3, .Value 6, .Value 5],
    [.Value 5, .Value 3, .Value 1, .Value 6, .Value 4, .Value 2, .Value 9, .Value 7, .Value 8],
    [.Value 6, .Value 4, .Value 2, .Value 9, .Value 7, .Value 8, .Value 5, .Value 3, .Value 1],
    [.Value 9, .Value 7, .Value 8, .Value 5, .Value 3, .Value 1, .Value 6, .Value 4,
      .Value 2]]⟩

/-- The fueled popcount helper is fuel-independent once the fuel covers
the argument. -/
theorem countOnesGo_congr : ∀ (k f1 f2 : Nat), k ≤ f1 → k ≤ f2 →
    countOnesGo f1 k = countOnesGo f2 k := by
  intro k
  induction k using Nat.strong_induction_on with
  | _ k ih =>
      intro f1 f2 h1 h2
      match f1, f2 with
      | 0, 0 => rfl
      | 0, f2 + 1 =>
          have hk : k = 0 := by omega
          subst hk
          simp [countOnesGo]
      | f1 + 1, 0 =>
          have hk : k = 0 := by omega
          subst hk
          simp [countOnesGo]
      | f1 + 1, f2 + 1 =>
          simp only [countOnesGo]
          by_cases hk : k = 0
          · simp [hk]
          · rw [if_neg hk, if_neg hk]
            congr 1
            exact ih (k / 2) (by omega) f1 f2 (by omega) (by omega)

/-- The recurrence satisfied by `count_ones`. -/
theorem countOnes_unfold : ∀ n : Nat,
    countOnes n = if n = 0 then 0 else n % 2 + countOnes (n / 2) := by
  intro n
  match n with
  | 0 => rfl
  | m + 1 =>
      rw [countOnes, if_neg (by omega)]
      show countOnesGo (m + 1) (m + 1) = (m + 1) % 2 + countOnes ((m + 1) / 2)
      simp only [countOnesGo]
      rw [if_neg (by omega)]
      congr 1
      exact countOnesGo_congr ((m + 1) / 2) m ((m + 1) / 2) (by omega) (by omega)

/-- The fueled trailing-zeros helper is fuel-independent on nonzero
arguments once the fuel covers the argument. -/
theorem tzGo_congr : ∀ (k f1 f2 : Nat), k ≠ 0 → k ≤ f1 → k ≤ f2 →
    tzGo f1 k = tzGo f2 k := by
  intro k
  induction k using Nat.strong_induction_on with
  | _ k ih =>
      intro f1 f2 hk h1 h2
      match f1, f2 with
      | 0, _ => omega
      | _ + 1, 0 => omega
      | f1 + 1, f2 + 1 =>
          simp only [tzGo]
          by_cases hodd : k % 2 = 1
          · rw [if_pos hodd, if_pos hodd]
          · rw [if_neg hodd, if_neg hodd]
            congr 1
            exact ih (k / 2) (by omega) f1 f2 (by omega) (by omega) (by omega)

/-- The recurrence satisfied by `trailing_zeros` on nonzero arguments. -/
theorem trailingZeros_unfold : ∀ n : Nat, n ≠ 0 →
    trailingZeros n = if n % 2 = 1 then 0 else trailingZeros (n / 2) + 1 := by
  intro n hn
  match n with
  | m + 1 =>
      rw [trailingZeros]
      show tzGo (m + 1) (m + 1) = _
      simp only [tzGo]
      by_cases hodd : (m + 1) % 2 = 1
      · rw [if_pos hodd, if_pos hodd]
      · rw [if_neg hodd, if_neg hodd]
        congr 1
        rw [trailingZeros]
        exact tzGo_congr ((m + 1) / 2) m ((m + 1) / 2) (by omega) (by omega) (by omega)

/-- `count_ones` vanishes exactly on zero. -/
theorem countOnes_eq_zero : ∀ n : Nat, countOnes n = 0 ↔ n = 0 := by
  intro n
  induction n using Nat.strong_induction_on with
  | _ n ih =>
      rw [countOnes_unfold]
      by_cases h : n = 0
      · simp [h]
      · rw [if_neg h]
        constructor
        · intro he
          have h3 : countOnes (n / 2) = 0 := by omega
          have h4 : n / 2 = 0 := (ih (n / 2) (by omega)).mp h3
          omega
        · intro he
          exact absurd he h

/-- A number equal to the conjunction of itself with its predecessor
being zero is a power of two (for nonzero numbers). -/
theorem pow2_of_land_pred : ∀ n : Nat, n ≠ 0 → n &&& (n - 1) = 0 → ∃ k, n = 2 ^ k := by
  intro n
  induction n using Nat.strong_induction_on with
  | _ n ih =>
      intro hn h
      have hbit : ∀ i, (n.testBit i && (n - 1).testBit i) = false := by
        intro i
        have := congrArg (fun x => Nat.testBit x i) h
        simpa [Nat.testBit_land, Nat.zero_testBit] using this
      by_cases hodd : n % 2 = 1
      · refine ⟨0, ?_⟩
        have hhalf : n / 2 = 0 := by
          apply Nat.eq_of_testBit_eq
          intro i
          rw [Nat.zero_testBit]
          have hb := hbit (i + 1)
          rw [Nat.testBit_succ, Nat.testBit_succ] at hb
          have hdiv : (n - 1) / 2 = n / 2 := by omega
          rw [hdiv] at hb
          simpa [Bool.and_self] using hb
        omega
      · have hm : n / 2 ≠ 0 := by omega
        have hland : (n / 2) &&& (n / 2 - 1) = 0 := by
          apply Nat.eq_of_testBit_eq
          intro i
          rw [Nat.zero_testBit, Nat.testBit_land]
          have hb := hbit (i + 1)
          rw [Nat.testBit_succ, Nat.testBit_succ] at hb
          have hdiv : (n - 1) / 2 = n / 2 - 1 := by omega
          rw [hdiv] at hb
          exact hb
        obtain ⟨k, hk⟩ := ih (n / 2) (by omega) hm hland
        refine ⟨k + 1, ?_⟩
        have : n = 2 * (n / 2) := by omega
        rw [this, hk]
        ring

/-- A power of two shares no bit with its predecessor. -/
theorem land_pred_of_pow2 : ∀ k : Nat, (2 ^ k) &&& (2 ^ k - 1) = 0 := by
  intro k
  apply Nat.eq_of_testBit_eq
  intro i
  rw [Nat.zero_testBit, Nat.testBit_land, Nat.testBit_two_pow,
    Nat.testBit_two_pow_sub_one]
  by_cases h : k = i
  · subst h
    simp
  · simp [h]

/-- A power of two has a single set bit. -/
theorem countOnes_two_pow : ∀ k : Nat, countOnes (2 ^ k) = 1 := by
  intro k
  induction k with
  | zero => rfl
  | succ k ih =>
      rw [countOnes_unfold]
      have hp : (2 : Nat) ^ (k + 1) = 2 ^ k * 2 := by ring
      have hpos : (2 : Nat) ^ k > 0 := Nat.pos_pow_of_pos k (by omega)
      rw [if_neg (by omega)]
      have h2 : 2 ^ (k + 1) % 2 = 0 := by omega
      have h3 : 2 ^ (k + 1) / 2 = 2 ^ k := by omega
      rw [h2, h3, ih]

/-- `count_ones` is one exactly on powers of two. -/
theorem countOnes_eq_one_iff : ∀ n : Nat, countOnes n = 1 ↔ ∃ k, n = 2 ^ k := by
  intro n
  constructor
  · induction n using Nat.strong_induction_on with
    | _ n ih =>
        intro h
        have hn : n ≠ 0 := by
          intro h0
          rw [h0] at h
          simp [countOnes, countOnesGo] at h
        rw [countOnes_unfold, if_neg hn] at h
        by_cases hodd : n % 2 = 1
        · have hz : countOnes (n / 2) = 0 := by omega
          have h4 : n / 2 = 0 := (countOnes_eq_zero (n / 2)).mp hz
          exact ⟨0, by omega⟩
        · have h1 : countOnes (n / 2) = 1 := by omega
          obtain ⟨k, hk⟩ := ih (n / 2) (by omega) h1
          refine ⟨k + 1, ?_⟩
          have : n = 2 * (n / 2) := by omega
          rw [this, hk]
          ring
  · rintro ⟨k, rfl⟩
    exact countOnes_two_pow k

/-- `trailing_zeros` of a power of two is its exponent. -/
theorem trailingZeros_two_pow : ∀ k : Nat, trailingZeros (2 ^ k) = k := by
  intro k
  induction k with
  | zero => rfl
  | succ k ih =>
      have hp : (2 : Nat) ^ (k + 1) = 2 ^ k * 2 := by ring
      have hpos : (2 : Nat) ^ k > 0 := Nat.pos_pow_of_pos k (by omega)
      rw [trailingZeros_unfold _ (by omega), if_neg (by omega)]
      have h3 : 2 ^ (k + 1) / 2 = 2 ^ k := by omega
      rw [h3, ih]

/-- Two powers of two share a bit exactly when the exponents agree. -/
theorem land_two_pow_ne_zero_iff : ∀ k w : Nat, ((2 ^ k) &&& (2 ^ w) ≠ 0) ↔ k = w := by
  intro k w
  constructor
  · intro h
    by_contra hne
    apply h
    apply Nat.eq_of_testBit_eq
    intro i
    rw [Nat.zero_testBit, Nat.testBit_land, Nat.testBit_two_pow, Nat.testBit_two_pow]
    by_cases h1 : k = i
    · subst h1
      have hw : w ≠ k := fun hw => hne hw.symm
      simp [hw]
    · simp [h1]
  · rintro rfl
    have hself : (2 ^ k) &&& (2 ^ k) = 2 ^ k := by
      apply Nat.eq_of_testBit_eq
      intro i
      rw [Nat.testBit_land, Bool.and_self]
    rw [hself]
    exact Nat.ne_of_gt (Nat.pos_pow_of_pos k (by omega))

/-- C8: for every candidate set, `BitSet::singleton` returns a value
exactly when `BitSet::count` is one; when it returns `some v`, `v` is
the sole element of the set; on the empty set and on every set with two
or more elements it returns `none`. -/
theorem C8_singleton_iff_count_one : ∀ s : BitSet,
    ((∃ v, s.singleton = some v) ↔ s.count = 1) ∧
    (∀ v, s.singleton = some v → s.has v = true ∧ ∀ w, s.has w = true → w = v) ∧
    ((s.count = 0 ∨ 2 ≤ s.count) → s.singleton = none) := by
  intro s
  obtain ⟨d⟩ := s
  by_cases hd : d = 0
  · subst hd
    refine ⟨⟨?_, ?_⟩, ?_, ?_⟩
    · rintro ⟨v, hv⟩
      simp [BitSet.singleton] at hv
    · intro hc
      exact absurd hc (by decide)
    · intro v hv
      simp [BitSet.singleton] at hv
    · intro _
      simp [BitSet.singleton]
  · by_cases hl : d &&& (d - 1) = 0
    · obtain ⟨k, hk⟩ := pow2_of_land_pred d hd hl
      subst hk
      have hsing : BitSet.singleton ⟨2 ^ k⟩ = some k := by
        rw [BitSet.singleton]
        simp only
        rw [if_neg hd, if_neg (not_not_intro hl), trailingZeros_two_pow]
      have hcount : BitSet.count ⟨2 ^ k⟩ = 1 := countOnes_two_pow k
      refine ⟨⟨fun _ => hcount, fun _ => ⟨k, hsing⟩⟩, ?_, ?_⟩
      · intro v hv
        rw [hsing, Option.some.injEq] at hv
        subst hv
        constructor
        · simp only [BitSet.has, Nat.one_shiftLeft, bne_iff_ne, ne_eq]
          exact (land_two_pow_ne_zero_iff k k).mpr rfl
        · intro w hw
          simp only [BitSet.has, Nat.one_shiftLeft, bne_iff_ne, ne_eq] at hw
          exact ((land_two_pow_ne_zero_iff k w).mp hw).symm
      · intro hpre
        exfalso
        rcases hpre with h | h <;> rw [hcount] at h <;> omega
    · have hsing : BitSet.singleton ⟨d⟩ = none := by
        rw [BitSet.singleton]
        simp only
        rw [if_neg hd, if_pos hl]
      have hcount : BitSet.count ⟨d⟩ ≠ 1 := by
        intro hc
        obtain ⟨k, hk⟩ := (countOnes_eq_one_iff d).mp hc
        subst hk
        exact hl (land_pred_of_pow2 k)
      refine ⟨⟨?_, ?_⟩, ?_, ?_⟩
      · rintro ⟨v, hv⟩
        rw [hsing] at hv
        simp at hv
      · intro hc
        exact absurd hc hcount
      · intro v hv
        rw [hsing] at hv
        simp at hv
      · intro _
        exact hsing

/-- Witness for C8 at the concrete sets `{2}` (data 4) and `{1, 2}`
(data 6). -/
theorem C8_witness :
    BitSet.count ⟨4⟩ = 1 ∧ BitSet.has ⟨4⟩ 2 = true ∧ BitSet.singleton ⟨6⟩ = none :=
  ⟨(C8_singleton_iff_count_one ⟨4⟩).1.mp ⟨2, by decide⟩,
    ((C8_singleton_iff_count_one ⟨4⟩).2.1 2 (by decide)).1,
    (C8_singleton_iff_count_one ⟨6⟩).2.2 (Or.inr (by decide))⟩

/-- `views::check` ignores `Options` cells: it factors through the fixed
digits of the view. -/
theorem checkGo_eq_checkVals : ∀ (l : List Cell) (m : Nat),
    checkGo l m = checkVals (valuesOf l) m := by
  intro l
  induction l with
  | nil => intro m; rfl
  | cons cell rest ih =>
      intro m
      match cell with
      | .Value v =>
          simp only [checkGo, valuesOf, List.filterMap_cons, checkVals]
          by_cases h : m &&& (1 <<< (v - 1)) ≠ 0
          · rw [if_pos h, if_pos h]
          · rw [if_neg h, if_neg h]
            exact ih _
      | .Options o =>
          simp only [checkGo, valuesOf, List.filterMap_cons]
          exact ih m

/-- `views::mask` ignores `Options` cells likewise. -/
theorem maskGo_eq_maskVals : ∀ (l : List Cell) (m : Nat),
    maskGo l m = maskVals (valuesOf l) m := by
  intro l
  induction l with
  | nil => intro m; rfl
  | cons cell rest ih =>
      intro m
      match cell with
      | .Value v =>
          simp only [maskGo, valuesOf, List.filterMap_cons, maskVals]
          exact ih _
      | .Options o =>
          simp only [maskGo, valuesOf, List.filterMap_cons]
          exact ih m

/-- A mask shares a bit with a power of two exactly when it has that bit. -/
theorem land_two_pow_ne_zero_iff_testBit : ∀ (m k : Nat),
    (m &&& 2 ^ k ≠ 0) ↔ m.testBit k = true := by
  intro m k
  constructor
  · intro h
    by_contra hbit
    apply h
    apply Nat.eq_of_testBit_eq
    intro i
    rw [Nat.zero_testBit, Nat.testBit_land, Nat.testBit_two_pow]
    by_cases hik : k = i
    · subst hik
      simp only [Bool.not_eq_true] at hbit
      simp [hbit]
    · simp [hik]
  · intro hbit h
    have := congrArg (fun x => Nat.testBit x k) h
    simp only [Nat.testBit_land, Nat.testBit_two_pow, Nat.zero_testBit] at this
    rw [hbit] at this
    simp at this

/-- The digit scan succeeds exactly on duplicate-free digit lists none of
whose digits are already recorded in the running mask. -/
theorem checkVals_ok_iff : ∀ (vs : List Nat) (m : Nat),
    (∀ v ∈ vs, 1 ≤ v ∧ v ≤ 9) →
    (checkVals vs m = .ok () ↔ vs.Nodup ∧ ∀ v ∈ vs, m.testBit (v - 1) = false) := by
  intro vs
  induction vs with
  | nil => intro m _; simp [checkVals]
  | cons v rest ih =>
      intro m hdig
      have hv := hdig v (List.mem_cons_self _ _)
      have hrest : ∀ w ∈ rest, 1 ≤ w ∧ w ≤ 9 :=
        fun w hw => hdig w (List.mem_cons_of_mem _ hw)
      rw [checkVals, Nat.one_shiftLeft]
      by_cases hbit : m &&& 2 ^ (v - 1) ≠ 0
      · rw [if_pos hbit]
        have htb : m.testBit (v - 1) = true :=
          (land_two_pow_ne_zero_iff_testBit m (v - 1)).mp hbit
        constructor
        · intro h
          exact absurd h (by simp)
        · rintro ⟨_, hall⟩
          rw [hall v (List.mem_cons_self _ _)] at htb
          simp at htb
      · rw [if_neg hbit]
        have htb : m.testBit (v - 1) = false := by
          by_contra hc
          exact hbit ((land_two_pow_ne_zero_iff_testBit m (v - 1)).mpr
            (by simpa using hc))
        rw [ih _ hrest]
        constructor
        · rintro ⟨hnd, hall⟩
          have hnotmem : v ∉ rest := by
            intro hmem
            have := hall v hmem
            rw [Nat.testBit_lor, Nat.testBit_two_pow] at this
            simp at this
          refine ⟨List.nodup_cons.mpr ⟨hnotmem, hnd⟩, ?_⟩
          intro w hw
          rcases List.mem_cons.mp hw with rfl | hw'
          · exact htb
          · have := hall w hw'
            rw [Nat.testBit_lor] at this
            exact (Bool.or_eq_false_iff.mp this).1
        · rintro ⟨hnd, hall⟩
          obtain ⟨hnotmem, hndr⟩ := List.nodup_cons.mp hnd
          refine ⟨hndr, ?_⟩
          intro w hw
          have hwd := hrest w hw
          rw [Nat.testBit_lor, Nat.testBit_two_pow]
          have h1 : m.testBit (w - 1) = false := hall w (List.mem_cons_of_mem _ hw)
          have h2 : v - 1 ≠ w - 1 := by
            intro he
            have : v = w := by omega
            exact hnotmem (this ▸ hw)
          simp [h1, h2]

/-- A failing digit scan names a digit that repeats (or collides with the
running mask) and appears in the list. -/
theorem checkVals_error : ∀ (vs : List Nat) (m : Nat) (s : String),
    (∀ v ∈ vs, 1 ≤ v ∧ v ≤ 9) → checkVals vs m = .error s →
    ∃ v ∈ vs, s = multipleMsg v ∧ (m.testBit (v - 1) = true ∨ 2 ≤ vs.count v) := by
  intro vs
  induction vs with
  | nil => intro m s _ h; simp [checkVals] at h
  | cons v rest ih =>
      intro m s hdig herr
      have hv := hdig v (List.mem_cons_self _ _)
      have hrest : ∀ w ∈ rest, 1 ≤ w ∧ w ≤ 9 :=
        fun w hw => hdig w (List.mem_cons_of_mem _ hw)
      rw [checkVals, Nat.one_shiftLeft] at herr
      by_cases hbit : m &&& 2 ^ (v - 1) ≠ 0
      · rw [if_pos hbit] at herr
        refine ⟨v, List.mem_cons_self _ _, ?_, Or.inl ?_⟩
        · exact (Except.error.injEq .. ▸ herr).symm
        · exact (land_two_pow_ne_zero_iff_testBit m (v - 1)).mp hbit
      · rw [if_neg hbit] at herr
        obtain ⟨w, hw, hs, hcase⟩ := ih _ s hrest herr
        rcases hcase with htb | hcnt
        · rw [Nat.testBit_lor, Nat.testBit_two_pow] at htb
          rcases Bool.or_eq_true_iff.mp htb with h1 | h2
          · exact ⟨w, List.mem_cons_of_mem _ hw, hs, Or.inl h1⟩
          · have hvw : v = w := by
              have hwd := hrest w hw
              have : v - 1 = w - 1 := by simpa using h2
              omega
            refine ⟨w, List.mem_cons_of_mem _ hw, hs, Or.inr ?_⟩
            have hc1 : 1 ≤ rest.count w := List.count_pos_iff.mpr hw
            rw [List.count_cons]
            have hif : (if v == w then 1 else 0) = 1 := by simp [hvw]
            rw [hif]
            omega
        · refine ⟨w, List.mem_cons_of_mem _ hw, hs, Or.inr ?_⟩
          rw [List.count_cons]
          omega

/-- Sequencing checks succeeds exactly when every check succeeds. -/
theorem seqChecks_ok_iff : ∀ (l : List (Except String Unit)),
    seqChecks l = .ok () ↔ ∀ x ∈ l, x = .ok () := by
  intro l
  induction l with
  | nil => simp [seqChecks]
  | cons x rest ih =>
      match x with
      | .error s =>
          simp only [seqChecks]
          constructor
          · intro h; exact absurd h (by simp)
          · intro h
            have := h (.error s) (List.mem_cons_self _ _)
            simp at this
      | .ok u =>
          obtain rfl : u = () := rfl
          simp only [seqChecks]
          rw [ih]
          constructor
          · intro h y hy
            rcases List.mem_cons.mp hy with rfl | hy'
            · rfl
            · exact h y hy'
          · intro h y hy
            exact h y (List.mem_cons_of_mem _ hy)

/-- A failing check sequence contains the failing check. -/
theorem seqChecks_error : ∀ (l : List (Except String Unit)) (s : String),
    seqChecks l = .error s → ∃ x ∈ l, x = .error s := by
  intro l
  induction l with
  | nil => intro s h; simp [seqChecks] at h
  | cons x rest ih =>
      intro s h
      match x with
      | .error s' =>
          simp only [seqChecks] at h
          exact ⟨.error s', List.mem_cons_self _ _, h⟩
      | .ok u =>
          simp only [seqChecks] at h
          obtain ⟨y, hy, hys⟩ := ih s h
          exact ⟨y, List.mem_cons_of_mem _ hy, hys⟩

/-- Membership in the fixed-digit list of a view. -/
theorem mem_valuesOf : ∀ (l : List Cell) (v : Nat),
    v ∈ valuesOf l ↔ Cell.Value v ∈ l := by
  intro l v
  simp only [valuesOf, List.mem_filterMap]
  constructor
  · rintro ⟨cell, hmem, hsome⟩
    match cell with
    | .Value w =>
        simp only [Option.some.injEq] at hsome
        exact hsome ▸ hmem
    | .Options o => simp at hsome
  · intro hmem
    exact ⟨.Value v, hmem, rfl⟩

/-- On a board with well-formed digits, every fixed digit of a row view
lies in 1..9. -/
theorem wf_view_digits_row : ∀ (b : Board), WfDigits b → ∀ i, i < 9 →
    ∀ v ∈ valuesOf (rowCells b i), 1 ≤ v ∧ v ≤ 9 := by
  intro b hwf i hi v hv
  rw [mem_valuesOf, rowCells] at hv
  obtain ⟨c, hc, hcell⟩ := List.mem_map.mp hv
  have hc9 : c < 9 := List.mem_range.mp hc
  have hok := hwf (i, c) ((mem_rcList i c).mpr ⟨hi, hc9⟩)
  rw [hcell] at hok
  simpa [cellDigitOk] using hok

/-- On a board with well-formed digits, every fixed digit of a column
view lies in 1..9. -/
theorem wf_view_digits_col : ∀ (b : Board), WfDigits b → ∀ i, i < 9 →
    ∀ v ∈ valuesOf (colCells b i), 1 ≤ v ∧ v ≤ 9 := by
  intro b hwf i hi v hv
  rw [mem_valuesOf, colCells] at hv
  obtain ⟨r, hr, hcell⟩ := List.mem_map.mp hv
  have hr9 : r < 9 := List.mem_range.mp hr
  have hok := hwf (r, i) ((mem_rcList r i).mpr ⟨hr9, hi⟩)
  rw [hcell] at hok
  simpa [cellDigitOk] using hok

/-- On a board with well-formed digits, every fixed digit of a subsquare
view lies in 1..9. -/
theorem wf_view_digits_ss : ∀ (b : Board), WfDigits b → ∀ sr sc, sr < 3 → sc < 3 →
    ∀ v ∈ valuesOf (ssCells b sr sc), 1 ≤ v ∧ v ≤ 9 := by
  intro b hwf sr sc hsr hsc v hv
  rw [mem_valuesOf, ssCells] at hv
  obtain ⟨j, hj, hcell⟩ := List.mem_map.mp hv
  have hj9 : j < 9 := List.mem_range.mp hj
  have hok := hwf (sr * 3 + j / 3, sc * 3 + j % 3)
    ((mem_rcList _ _).mpr ⟨by omega, by omega⟩)
  rw [hcell] at hok
  simpa [cellDigitOk] using hok

/-- A view check succeeds exactly when its fixed digits are
duplicate-free (digits assumed well-formed). -/
theorem checkView_ok_iff : ∀ (l : List Cell), (∀ v ∈ valuesOf l, 1 ≤ v ∧ v ≤ 9) →
    (checkView l = .ok () ↔ (valuesOf l).Nodup) := by
  intro l hd
  rw [checkView, checkGo_eq_checkVals, checkVals_ok_iff _ _ hd]
  constructor
  · exact fun h => h.1
  · intro h
    exact ⟨h, fun v _ => Nat.zero_testBit _⟩

/-- `Board::check` succeeds exactly when no view holds a duplicated fixed
digit. -/
theorem check_ok_iff : ∀ (b : Board), WfDigits b → (b.check = .ok () ↔ noDups b) := by
  intro b hwf
  rw [Board.check, seqChecks_ok_iff, List.forall_mem_append, List.forall_mem_append,
    List.forall_mem_map, List.forall_mem_map, List.forall_mem_map, noDups]
  constructor
  · rintro ⟨⟨hA, hB⟩, hC⟩
    refine ⟨?_, ?_, ?_⟩
    · intro i hi
      exact (checkView_ok_iff _
        (wf_view_digits_row b hwf i (List.mem_range.mp hi))).mp (hA i hi)
    · intro i hi
      exact (checkView_ok_iff _
        (wf_view_digits_col b hwf i (List.mem_range.mp hi))).mp (hB i hi)
    · intro i hi
      have h9 := List.mem_range.mp hi
      exact (checkView_ok_iff _
        (wf_view_digits_ss b hwf (i / 3) (i % 3) (by omega) (by omega))).mp (hC i hi)
  · rintro ⟨h1, h2, h3⟩
    refine ⟨⟨?_, ?_⟩, ?_⟩
    · intro i hi
      exact (checkView_ok_iff _
        (wf_view_digits_row b hwf i (List.mem_range.mp hi))).mpr (h1 i hi)
    · intro i hi
      exact (checkView_ok_iff _
        (wf_view_digits_col b hwf i (List.mem_range.mp hi))).mpr (h2 i hi)
    · intro i hi
      have h9 := List.mem_range.mp hi
      exact (checkView_ok_iff _
        (wf_view_digits_ss b hwf (i / 3) (i % 3) (by omega) (by omega))).mpr (h3 i hi)

/-- A failing `Board::check` names a digit that is duplicated in some
view. -/
theorem check_error_char : ∀ (b : Board) (s : String), WfDigits b →
    b.check = .error s → ∃ v, s = multipleMsg v ∧ dupDigitSomewhere b v := by
  intro b s hwf herr
  rw [Board.check] at herr
  obtain ⟨x, hx, hxe⟩ := seqChecks_error _ s herr
  subst hxe
  rcases List.mem_append.mp hx with hx' | hC
  · rcases List.mem_append.mp hx' with hA | hB
    · obtain ⟨i, hi, heq⟩ := List.mem_map.mp hA
      rw [checkView, checkGo_eq_checkVals] at heq
      obtain ⟨v, _, hs, hcase⟩ := checkVals_error _ 0 s
        (wf_view_digits_row b hwf i (List.mem_range.mp hi)) heq
      rcases hcase with htb | hcnt
      · rw [Nat.zero_testBit] at htb
        simp at htb
      · exact ⟨v, hs, Or.inl ⟨i, hi, hcnt⟩⟩
    · obtain ⟨i, hi, heq⟩ := List.mem_map.mp hB
      rw [checkView, checkGo_eq_checkVals] at heq
      obtain ⟨v, _, hs, hcase⟩ := checkVals_error _ 0 s
        (wf_view_digits_col b hwf i (List.mem_range.mp hi)) heq
      rcases hcase with htb | hcnt
      · rw [Nat.zero_testBit] at htb
        simp at htb
      · exact ⟨v, hs, Or.inr (Or.inl ⟨i, hi, hcnt⟩)⟩
  · obtain ⟨i, hi, heq⟩ := List.mem_map.mp hC
    have h9 := List.mem_range.mp hi
    rw [checkView, checkGo_eq_checkVals] at heq
    obtain ⟨v, _, hs, hcase⟩ := checkVals_error _ 0 s
      (wf_view_digits_ss b hwf (i / 3) (i % 3) (by omega) (by omega)) heq
    rcases hcase with htb | hcnt
    · rw [Nat.zero_testBit] at htb
      simp at htb
    · exact ⟨v, hs, Or.inr (Or.inr ⟨i, hi, hcnt⟩)⟩

/-- C3 (amended): validation scans only fixed cells — two boards whose
views carry the same fixed digits validate identically, so `Candidates`
cells can never cause a failure — and it fails exactly when some row,
column or 3x3 block holds the same digit in two fixed cells; the error
raised at the first repeat names the duplicated digit (but, contrary to
the original claim, not the affected line or block). -/
theorem C3_check_fixed_only : ∀ b : Board, WfDigits b →
    (b.check = .ok () ↔ noDups b) ∧
    (∀ s, b.check = .error s → ∃ v, s = multipleMsg v ∧ dupDigitSomewhere b v) ∧
    (∀ b' : Board,
      (∀ i ∈ List.range 9, valuesOf (rowCells b' i) = valuesOf (rowCells b i)) →
      (∀ i ∈ List.range 9, valuesOf (colCells b' i) = valuesOf (colCells b i)) →
      (∀ i ∈ List.range 9,
        valuesOf (ssCells b' (i / 3) (i % 3)) = valuesOf (ssCells b (i / 3) (i % 3))) →
      b'.check = b.check) := by
  intro b hwf
  refine ⟨check_ok_iff b hwf, fun s => check_error_char b s hwf, ?_⟩
  intro b' hrow hcol hss
  rw [Board.check, Board.check]
  congr 1
  congr 1
  · congr 1
    · apply List.map_congr_left
      intro i hi
      rw [checkView, checkView, checkGo_eq_checkVals, checkGo_eq_checkVals, hrow i hi]
    · apply List.map_congr_left
      intro i hi
      rw [checkView, checkView, checkGo_eq_checkVals, checkGo_eq_checkVals, hcol i hi]
  · apply List.map_congr_left
    intro i hi
    rw [checkView, checkView, checkGo_eq_checkVals, checkGo_eq_checkVals, hss i hi]

/-- Witness for C3 on the all-blank board: its digits are well-formed and
validation succeeds because no view holds a duplicate. -/
theorem C3_witness : Board.check allBlank = .ok () :=
  (C3_check_fixed_only allBlank (by unfold WfDigits; decide)).1.mpr
    (by unfold noDups; decide)

/-- Counterexample to C3 as stated: a duplicated fixed 1 inside row 0 and
a duplicated fixed 1 inside row 5 produce the very same error string, so
the error cannot identify which line or block holds the conflict (it
names only the digit). -/
theorem C3_counterexample :
    Board.check dupInRow0 = .error (multipleMsg 1) ∧
    Board.check dupInRow5 = .error (multipleMsg 1) ∧
    (valuesOf (rowCells dupInRow0 0)).count 1 = 2 ∧
    (valuesOf (rowCells dupInRow0 5)).count 1 = 0 ∧
    (valuesOf (rowCells dupInRow5 0)).count 1 = 0 ∧
    (valuesOf (rowCells dupInRow5 5)).count 1 = 2 := by
  refine ⟨?_, ?_, ?_, ?_, ?_, ?_⟩ <;> decide

/-- The bit of a digit survives the availability-mask fold exactly when
the running mask has it and no scanned digit removes it (the scanned
digits being duplicate-free and present in the running mask, the xor
acts as removal). -/
theorem maskVals_testBit : ∀ (vs : List Nat) (m : Nat),
    (∀ v ∈ vs, 1 ≤ v ∧ v ≤ 9) → vs.Nodup →
    (∀ v ∈ vs, m.testBit (v - 1) = true) →
    ∀ i, ((maskVals vs m).testBit i = true ↔
      (m.testBit i = true ∧ ∀ v ∈ vs, v - 1 ≠ i)) := by
  intro vs
  induction vs with
  | nil => intro m _ _ _ i; simp [maskVals]
  | cons v rest ih =>
      intro m hdig hnd hbits i
      have hv := hdig v (List.mem_cons_self _ _)
      have hrest : ∀ w ∈ rest, 1 ≤ w ∧ w ≤ 9 :=
        fun w hw => hdig w (List.mem_cons_of_mem _ hw)
      obtain ⟨hnotmem, hndr⟩ := List.nodup_cons.mp hnd
      have hbitsrest : ∀ w ∈ rest, (m ^^^ (1 <<< (v - 1))).testBit (w - 1) = true := by
        intro w hw
        have hwd := hrest w hw
        have hne : v - 1 ≠ w - 1 := by
          intro he
          have : v = w := by omega
          exact hnotmem (this ▸ hw)
        rw [Nat.one_shiftLeft, Nat.testBit_xor, Nat.testBit_two_pow]
        simp [hne, hbits w (List.mem_cons_of_mem _ hw)]
      rw [maskVals, ih _ hrest hndr hbitsrest i]
      rw [Nat.one_shiftLeft, Nat.testBit_xor, Nat.testBit_two_pow]
      by_cases hvi : v - 1 = i
      · have hmv : m.testBit i = true := hvi ▸ hbits v (List.mem_cons_self _ _)
        constructor
        · rintro ⟨hx, _⟩
          rw [hmv, hvi] at hx
          simp at hx
        · rintro ⟨_, hall⟩
          exact absurd hvi (hall v (List.mem_cons_self _ _))
      · have hdec : decide (v - 1 = i) = false := decide_eq_false hvi
        rw [hdec, Bool.xor_false]
        constructor
        · rintro ⟨hm, hall⟩
          refine ⟨hm, ?_⟩
          intro w hw
          rcases List.mem_cons.mp hw with rfl | hw'
          · exact hvi
          · exact hall w hw'
        · rintro ⟨hm, hall⟩
          exact ⟨hm, fun w hw => hall w (List.mem_cons_of_mem _ hw)⟩

/-- The availability-mask fold stays below `2 ^ 9` when started there and
fed digits 1..9. -/
theorem maskVals_lt_512 : ∀ (vs : List Nat) (m : Nat),
    (∀ v ∈ vs, 1 ≤ v ∧ v ≤ 9) → m < 512 → maskVals vs m < 512 := by
  intro vs
  induction vs with
  | nil => intro m _ h; exact h
  | cons v rest ih =>
      intro m hdig hm
      have hv := hdig v (List.mem_cons_self _ _)
      rw [maskVals]
      apply ih _ (fun w hw => hdig w (List.mem_cons_of_mem _ hw))
      have h1 : (1 <<< (v - 1)) < 512 := by
        rw [Nat.one_shiftLeft]
        have : v - 1 < 9 := by omega
        calc (2 : Nat) ^ (v - 1) < 2 ^ 9 := Nat.pow_lt_pow_right (by omega) this
        _ = 512 := by norm_num
      have h512 : (512 : Nat) = 2 ^ 9 := by norm_num
      rw [h512] at hm h1 ⊢
      exact Nat.xor_lt_two_pow hm h1

/-- Digits 1..9 avoid an index exactly when the corresponding digit is
absent from the list. -/
theorem forall_sub_one_ne_iff : ∀ (vs : List Nat), (∀ v ∈ vs, 1 ≤ v ∧ v ≤ 9) →
    ∀ d, 1 ≤ d → d ≤ 9 → ((∀ v ∈ vs, v - 1 ≠ d - 1) ↔ d ∉ vs) := by
  intro vs hdg d h1 h9
  constructor
  · intro h hd
    exact h d hd rfl
  · intro hnd v hv he
    have hb := hdg v hv
    have hvd : v = d := by omega
    exact hnd (hvd ▸ hv)

/-- C4: on a validated board with well-formed digits, the exclusion mask
of a cell is the full nine-bit universe with exactly the digits removed
that are fixed somewhere in that cell's row, column or 3x3 block. -/
theorem C4_exclusion_mask : ∀ (b : Board) (r c : Nat),
    WfDigits b → b.check = .ok () → r < 9 → c < 9 →
    ((∀ d, 1 ≤ d → d ≤ 9 →
      ((exclMask b r c).testBit (d - 1) = true ↔ ¬ fixedInViews b r c d)) ∧
     exclMask b r c < 512) := by
  intro b r c hwf hok hr hc
  obtain ⟨hndr, hndc, hnds⟩ := (check_ok_iff b hwf).mp hok
  have hrowdig := wf_view_digits_row b hwf r hr
  have hcoldig := wf_view_digits_col b hwf c hc
  have hssdig := wf_view_digits_ss b hwf (r / 3) (c / 3) (by omega) (by omega)
  have hALLbit : ∀ (vs : List Nat), (∀ v ∈ vs, 1 ≤ v ∧ v ≤ 9) →
      ∀ v ∈ vs, ALL.testBit (v - 1) = true := by
    intro vs hd v hv
    have hb := hd v hv
    rw [ALL, Nat.one_shiftLeft, Nat.testBit_two_pow_sub_one]
    simp only [decide_eq_true_eq]
    omega
  have hssnd : (valuesOf (ssCells b (r / 3) (c / 3))).Nodup := by
    have hidx : ((r / 3) * 3 + c / 3) ∈ List.range 9 := List.mem_range.mpr (by omega)
    have h1 : ((r / 3) * 3 + c / 3) / 3 = r / 3 := by omega
    have h2 : ((r / 3) * 3 + c / 3) % 3 = c / 3 := by omega
    have := hnds _ hidx
    rw [h1, h2] at this
    exact this
  have hrowbit := maskVals_testBit (valuesOf (rowCells b r)) ALL hrowdig
    (hndr r (List.mem_range.mpr hr)) (hALLbit _ hrowdig)
  have hcolbit := maskVals_testBit (valuesOf (colCells b c)) ALL hcoldig
    (hndc c (List.mem_range.mpr hc)) (hALLbit _ hcoldig)
  have hssbit := maskVals_testBit (valuesOf (ssCells b (r / 3) (c / 3))) ALL hssdig
    hssnd (hALLbit _ hssdig)
  have hALLlt : ALL < 512 := by decide
  constructor
  · intro d h1 h9
    rw [exclMask, maskView, maskView, maskView, maskGo_eq_maskVals,
      maskGo_eq_maskVals, maskGo_eq_maskVals, Nat.testBit_land, Nat.testBit_land]
    simp only [Bool.and_eq_true]
    rw [hrowbit, hcolbit, hssbit,
      forall_sub_one_ne_iff _ hrowdig d h1 h9,
      forall_sub_one_ne_iff _ hcoldig d h1 h9,
      forall_sub_one_ne_iff _ hssdig d h1 h9]
    have hALLd : ALL.testBit (d - 1) = true := by
      rw [ALL, Nat.one_shiftLeft, Nat.testBit_two_pow_sub_one]
      simp only [decide_eq_true_eq]
      omega
    simp only [fixedInViews]
    constructor
    · rintro ⟨⟨⟨_, hrw⟩, _, hcl⟩, _, hss⟩
      rintro (h | h | h)
      · exact hrw h
      · exact hcl h
      · exact hss h
    · intro h
      exact ⟨⟨⟨hALLd, fun hm => h (Or.inl hm)⟩, hALLd,
        fun hm => h (Or.inr (Or.inl hm))⟩, hALLd, fun hm => h (Or.inr (Or.inr hm))⟩
  · rw [exclMask, maskView, maskGo_eq_maskVals]
    calc maskVals (valuesOf (rowCells b r)) ALL &&& _ &&& _
        ≤ maskVals (valuesOf (rowCells b r)) ALL &&& _ := Nat.and_le_left
      _ ≤ maskVals (valuesOf (rowCells b r)) ALL := Nat.and_le_left
      _ < 512 := maskVals_lt_512 _ ALL hrowdig hALLlt

/-- Witness for C4: on the board built from `sampleInput` (a single 4
fixed at row 2, column 3), the exclusion mask of cell (2, 5) — same
row — has the bit of digit 4 cleared. -/
theorem C4_witness : (exclMask (buildBoard sampleInput) 2 5).testBit 3 = false := by
  have h := (C4_exclusion_mask (buildBoard sampleInput) 2 5
    (by unfold WfDigits; decide) (by decide) (by decide) (by decide)).1 4
    (by decide) (by decide)
  have hfix : fixedInViews (buildBoard sampleInput) 2 5 4 := by
    unfold fixedInViews
    decide
  rcases Bool.eq_false_or_eq_true ((exclMask (buildBoard sampleInput) 2 5).testBit 3)
    with hb | hb
  · exact absurd hfix (h.mp hb)
  · exact hb

/-- Cells of the built board are the raw values through `buildCell`. -/
theorem getCell_buildBoard : ∀ (input : List (List Nat)) (r c : Nat), r < 9 → c < 9 →
    getCell (buildBoard input) r c = buildCell ((input.getD r []).getD c 0) := by
  intro input r c hr hc
  have hrow : (buildBoard input).cells.getD r [] =
      (List.range 9).map (fun c => buildCell ((input.getD r []).getD c 0)) := by
    rw [buildBoard]
    simp only
    rw [List.getD_eq_getElem?_getD, List.getElem?_map, List.getElem?_range hr,
      Option.map_some', Option.getD_some]
  rw [getCell, hrow, List.getD_eq_getElem?_getD, List.getElem?_map,
    List.getElem?_range hc, Option.map_some', Option.getD_some]

/-- C9 (spec-modelled): the constructor on a 9x9 array of raw integers
rejects any value above 9 with an error naming the offending row, column
and value; otherwise it builds the board — each zero becomes a
`Candidates` cell over the full universe, each nonzero value a `Fixed`
cell — and fails when the initial fixed placements violate
row/column/block uniqueness, propagating the validation error. -/
theorem C9_constructor_model : ∀ (input : List (List Nat)),
    (∀ r c v, badEntry input = some (r, c, v) →
      9 < v ∧ r < 9 ∧ c < 9 ∧ (input.getD r []).getD c 0 = v ∧
      fromInput input = .error (inputErrMsg r c v)) ∧
    (badEntry input = none → (buildBoard input).check = .ok () →
      fromInput input = .ok (buildBoard input)) ∧
    (badEntry input = none → ∀ s, (buildBoard input).check = .error s →
      fromInput input = .error s) ∧
    (∀ r c, r < 9 → c < 9 →
      ((input.getD r []).getD c 0 = 0 → getCell (buildBoard input) r c = .Options ALL) ∧
      ((input.getD r []).getD c 0 ≠ 0 →
        getCell (buildBoard input) r c = .Value ((input.getD r []).getD c 0))) := by
  intro input
  refine ⟨?_, ?_, ?_, ?_⟩
  · intro r c v hsome
    obtain ⟨rc, hmem, hf⟩ := List.exists_of_findSome?_eq_some hsome
    obtain ⟨a, b2⟩ := rc
    simp only at hf
    by_cases hgt : 9 < (input.getD a []).getD b2 0
    · rw [if_pos hgt, Option.some.injEq] at hf
      simp only [Prod.mk.injEq] at hf
      obtain ⟨rfl, rfl, h3⟩ := hf
      have hb := (mem_rcList a b2).mp hmem
      refine ⟨h3 ▸ hgt, hb.1, hb.2, h3, ?_⟩
      rw [fromInput, hsome]
    · rw [if_neg hgt] at hf
      simp at hf
  · intro hnone hok
    rw [fromInput, hnone, hok]
  · intro hnone s herr
    rw [fromInput, hnone, herr]
  · intro r c hr hc
    constructor
    · intro h0
      rw [getCell_buildBoard input r c hr hc, h0, buildCell, if_pos rfl]
    · intro h0
      rw [getCell_buildBoard input r c hr hc, buildCell, if_neg h0]

/-- Witness for C9: the out-of-range 12 at row 1, column 2 is rejected
with the described error; the clean sample input builds and validates;
the conflicting input (two 7s in column 0) is rejected by validation;
nonzero raw values become fixed cells and zeroes full candidate cells. -/
theorem C9_witness :
    fromInput badInput = .error (inputErrMsg 1 2 12) ∧
    fromInput sampleInput = .ok (buildBoard sampleInput) ∧
    fromInput conflictInput = .error (multipleMsg 7) ∧
    getCell (buildBoard sampleInput) 2 3 = .Value 4 ∧
    getCell (buildBoard sampleInput) 0 0 = .Options ALL :=
  ⟨((C9_constructor_model badInput).1 1 2 12 (by decide)).2.2.2.2,
    (C9_constructor_model sampleInput).2.1 (by decide) (by decide),
    (C9_constructor_model conflictInput).2.2.1 (by decide) (multipleMsg 7) (by decide),
    (((C9_constructor_model sampleInput).2.2.2 2 3 (by decide) (by decide)).2 (by decide)),
    (((C9_constructor_model sampleInput).2.2.2 0 0 (by decide) (by decide)).1 (by decide))⟩

/-- Conjunction of a mask with itself. -/
theorem land_self : ∀ n : Nat, n &&& n = n := by
  intro n
  apply Nat.eq_of_testBit_eq
  intro i
  rw [Nat.testBit_land, Bool.and_self]

/-- A narrowed mask, conjoined again with the original, is unchanged. -/
theorem land_land_self : ∀ a b : Nat, (a &&& b) &&& a = a &&& b := by
  intro a b
  apply Nat.eq_of_testBit_eq
  intro i
  rw [Nat.testBit_land, Nat.testBit_land]
  cases a.testBit i <;> cases b.testBit i <;> rfl

/-- Mask inclusion, phrased through conjunction. -/
theorem land_eq_left_iff : ∀ a b : Nat,
    a &&& b = a ↔ (∀ i, a.testBit i = true → b.testBit i = true) := by
  intro a b
  constructor
  · intro h i ha
    have := congrArg (fun x => Nat.testBit x i) h
    simp only [Nat.testBit_land] at this
    rw [ha] at this
    simpa using this.symm
  · intro h
    apply Nat.eq_of_testBit_eq
    intro i
    rw [Nat.testBit_land]
    rcases Bool.eq_false_or_eq_true (a.testBit i) with hb | hb
    · rw [hb, h i hb, Bool.true_and]
    · rw [hb, Bool.false_and]

/-- A nonzero mask has its lowest set bit at `trailing_zeros`. -/
theorem testBit_trailingZeros : ∀ n : Nat, n ≠ 0 →
    n.testBit (trailingZeros n) = true := by
  intro n
  induction n using Nat.strong_induction_on with
  | _ n ih =>
      intro hn
      rw [trailingZeros_unfold n hn]
      by_cases hodd : n % 2 = 1
      · rw [if_pos hodd, Nat.testBit_zero]
        simp [hodd]
      · rw [if_neg hodd, Nat.testBit_succ]
        exact ih (n / 2) (by omega) (by omega)

/-- Cell refinement is reflexive. -/
theorem cellLe_refl : ∀ c : Cell, cellLe c c := by
  intro c
  match c with
  | .Value v => rfl
  | .Options o => exact land_self o

/-- Cell refinement is transitive. -/
theorem cellLe_trans : ∀ a b c : Cell, cellLe a b → cellLe b c → cellLe a c := by
  intro a b c hab hbc
  match a, b, c with
  | .Value v, .Value w, .Value x =>
      rw [cellLe] at *
      omega
  | .Value _, .Value _, .Options _ => exact hbc.elim
  | .Value _, .Options _, _ => exact hab.elim
  | .Options o, .Value w, .Value x =>
      rw [cellLe] at *
      rw [hbc]
      exact hab
  | .Options _, .Value _, .Options _ => exact hbc.elim
  | .Options o, .Options o', .Value d =>
      simp only [cellLe] at hab hbc ⊢
      rw [Nat.one_shiftLeft] at hbc ⊢
      have hb' : o'.testBit (d - 1) = true :=
        (land_two_pow_ne_zero_iff_testBit o' (d - 1)).mp hbc
      have hsub := (land_eq_left_iff o' o).mp hab
      exact (land_two_pow_ne_zero_iff_testBit o (d - 1)).mpr (hsub _ hb')
  | .Options o, .Options o', .Options o'' =>
      rw [cellLe] at *
      rw [land_eq_left_iff] at *
      intro i h
      exact hab i (hbc i h)

/-- Board refinement is reflexive. -/
theorem boardRefines_refl : ∀ b : Board, boardRefines b b :=
  fun b r c => cellLe_refl (getCell b r c)

/-- Board refinement is transitive. -/
theorem boardRefines_trans : ∀ a b c : Board,
    boardRefines a b → boardRefines b c → boardRefines a c :=
  fun a b c hab hbc r col =>
    cellLe_trans (getCell a r col) (getCell b r col) (getCell c r col)
      (hab r col) (hbc r col)

/-- A single write refines the board when the written cell refines the
cell it replaces. -/
theorem boardRefines_setRaw : ∀ (b : Board) (r c : Nat) (v : Cell),
    cellLe (getCell b r c) v → boardRefines b (setRaw b r c v) := by
  intro b r c v hle r' c'
  by_cases hx : r' = r ∧ c' = c
  · obtain ⟨rfl, rfl⟩ := hx
    by_cases hin : r' < b.cells.length ∧ c' < (b.cells.getD r' []).length
    · rw [getCell_setRaw_eq b r' c' v hin.1 hin.2]
      exact hle
    · rw [setRaw_oob b r' c' v hin]
      exact cellLe_refl _
  · rw [getCell_setRaw_ne b r c v r' c' (by tauto)]
    exact cellLe_refl _

/-- Fixing a cell to the sole surviving option refines it: the chosen
digit (one past the lowest set bit of the narrowed mask) is a member of
the original option mask. -/
theorem cellLe_naked_fix : ∀ (og m : Nat), ¬(og &&& m = 0) →
    cellLe (.Options og) (.Value (trailingZeros (og &&& m) + 1)) := by
  intro og m h
  simp only [cellLe]
  rw [Nat.one_shiftLeft, Nat.add_sub_cancel]
  apply (land_two_pow_ne_zero_iff_testBit og _).mpr
  have htb := testBit_trailingZeros (og &&& m) h
  rw [Nat.testBit_land] at htb
  simp only [Bool.and_eq_true] at htb
  exact htb.1

/-- The naked-single pass refines the board, on every path. -/
theorem pass1_refines : ∀ (l : List (Nat × Nat)) (b : Board) (o : Nat) (ch : Bool),
    boardRefines b (pass1 l b o ch).1 := by
  intro l
  induction l with
  | nil => intro b o ch; exact boardRefines_refl b
  | cons rc rest ih =>
      intro b o ch
      obtain ⟨r, c⟩ := rc
      simp only [pass1]
      split
      · exact ih b o ch
      · next og heq =>
          split
          · exact boardRefines_refl b
          · next h0 =>
              split
              · have hle : cellLe (getCell b r c)
                    (.Value (trailingZeros (og &&& exclMask b r c) + 1)) := by
                  rw [heq]
                  exact cellLe_naked_fix og (exclMask b r c) h0
                split
                · exact boardRefines_setRaw b r c _ hle
                · exact boardRefines_trans _ _ _ (boardRefines_setRaw b r c _ hle)
                    (ih _ o true)
              · have hle : cellLe (getCell b r c) (.Options (og &&& exclMask b r c)) := by
                  rw [heq]
                  simp only [cellLe]
                  exact land_land_self og (exclMask b r c)
                split
                · exact boardRefines_setRaw b r c _ hle
                · exact boardRefines_trans _ _ _ (boardRefines_setRaw b r c _ hle)
                    (ih _ _ _)

/-- A hit of the hidden-single scan is a digit at or above the starting
digit whose relative bit is set in the scanned shifter. -/
theorem hiddenGo_some : ∀ (b : Board) (r c fuel value shifter v : Nat),
    hiddenGo b r c fuel value shifter = some v →
    value ≤ v ∧ shifter.testBit (v - value) = true := by
  intro b r c fuel
  induction fuel with
  | zero => intro value shifter v h; simp [hiddenGo] at h
  | succ fuel ih =>
      intro value shifter v h
      rw [hiddenGo] at h
      by_cases hz : shifter = 0
      · rw [if_pos hz] at h
        simp at h
      · rw [if_neg hz] at h
        split at h
        · next hcond =>
            have hv : value = v := by simpa using h
            subst hv
            refine ⟨Nat.le_refl _, ?_⟩
            rw [Nat.sub_self, Nat.testBit_zero]
            simp [hcond.1]
        · obtain ⟨h1, h2⟩ := ih (value + 1) (shifter / 2) v h
          refine ⟨by omega, ?_⟩
          have hsub : v - value = (v - (value + 1)) + 1 := by omega
          rw [hsub, Nat.testBit_succ]
          exact h2

/-- The hidden-single pass refines the board, on every path. -/
theorem pass2_refines : ∀ (l : List (Nat × Nat)) (b : Board) (o : Nat) (ch : Bool),
    boardRefines b (pass2 l b o ch).1 := by
  intro l
  induction l with
  | nil => intro b o ch; exact boardRefines_refl b
  | cons rc rest ih =>
      intro b o ch
      obtain ⟨r, c⟩ := rc
      simp only [pass2]
      split
      · exact ih b o ch
      · next opts heq =>
          split
          · exact ih b o ch
          · next value heqf =>
              have hle : cellLe (getCell b r c) (.Value value) := by
                rw [heq]
                simp only [cellLe]
                obtain ⟨h1, h2⟩ := hiddenGo_some b r c opts 1 opts value heqf
                rw [Nat.one_shiftLeft]
                exact (land_two_pow_ne_zero_iff_testBit opts (value - 1)).mpr h2
              split
              · exact boardRefines_setRaw b r c _ hle
              · exact boardRefines_trans _ _ _ (boardRefines_setRaw b r c _ hle)
                  (ih _ _ true)

/-- One propagation sweep refines the board, on every path. -/
theorem solveOne_refines : ∀ b : Board, boardRefines b (solveOne b).1 := by
  intro b
  rw [solveOne]
  split
  · next b1 s h1 =>
      have hb1 : b1 = (pass1 rcList b 0 false).1 := by rw [h1]
      rw [hb1]
      exact pass1_refines rcList b 0 false
  · next b1 options changed h1 =>
      have hb1 : boardRefines b b1 := by
        have hfst : b1 = (pass1 rcList b 0 false).1 := by rw [h1]
        rw [hfst]
        exact pass1_refines rcList b 0 false
      split
      · exact hb1
      · split
        · next b2 s h2 =>
            have hfst : b2 = (pass2 rcList b1 options changed).1 := by rw [h2]
            rw [hfst]
            exact boardRefines_trans _ _ _ hb1 (pass2_refines rcList b1 options changed)
        · next b2 oc h2 =>
            have hb2 : boardRefines b b2 := by
              have hfst : b2 = (pass2 rcList b1 options changed).1 := by rw [h2]
              rw [hfst]
              exact boardRefines_trans _ _ _ hb1 (pass2_refines rcList b1 options changed)
            split
            · exact hb2
            · exact hb2

/-- Started with the changed flag raised, the naked-single pass reports
the flag raised on every success. -/
theorem pass1_changed_mono : ∀ (l : List (Nat × Nat)) (b : Board) (o : Nat)
    (oc : Nat × Bool), (pass1 l b o true).2 = .ok oc → oc.2 = true := by
  intro l
  induction l with
  | nil =>
      intro b o oc h
      simp only [pass1] at h
      obtain rfl : (o, true) = oc := by simpa using h
      rfl
  | cons rc rest ih =>
      intro b o oc h
      obtain ⟨r, c⟩ := rc
      simp only [pass1] at h
      split at h
      · exact ih b o oc h
      · split at h
        · simp at h
        · split at h
          · split at h
            · simp at h
            · exact ih _ o oc h
          · split at h
            · simp at h
            · rw [Bool.true_or] at h
              exact ih _ _ oc h

/-- A fixed cell survives any refinement with its digit intact. -/
theorem refines_value : ∀ (b b' : Board) (r c d : Nat), boardRefines b b' →
    getCell b r c = .Value d → getCell b' r c = .Value d := by
  intro b b' r c d h hv
  have hle := h r c
  rw [hv] at hle
  match hx : getCell b' r c with
  | .Value w =>
      rw [hx] at hle
      simp only [cellLe] at hle
      rw [hle]
  | .Options o =>
      rw [hx] at hle
      exact hle.elim

/-- C5: the naked-single treatment of one `Options` cell at the head of
the scan, with `opts` the intersection of the cell's current options and
the live exclusion masks of its row, column and block: (i) an empty
intersection aborts the sweep with the contradiction error naming the
cell's row and column; (ii) a singleton intersection fixes the cell to
its sole digit — a member of the original option set — and every
successful completion of the pass reports the changed flag raised;
(iii) otherwise the cell keeps the narrowed subset, the
remaining-candidate count is incremented, and the flag passed on is
raised exactly when the set actually shrank. -/
theorem C5_naked_single_step :
    ∀ (rest : List (Nat × Nat)) (b : Board) (r c og opts options : Nat)
      (changed : Bool),
    getCell b r c = .Options og → opts = og &&& exclMask b r c →
    ((opts = 0 →
      pass1 ((r, c) :: rest) b options changed = (b, .error (noRemainingMsg r c))) ∧
     (countOnes opts = 1 →
      getCell (pass1 ((r, c) :: rest) b options changed).1 r c =
          .Value (trailingZeros opts + 1) ∧
      og.testBit (trailingZeros opts) = true ∧
      (∀ oc, (pass1 ((r, c) :: rest) b options changed).2 = .ok oc → oc.2 = true)) ∧
     (2 ≤ countOnes opts →
      opts &&& og = opts ∧ (og ≠ opts ↔ opts < og) ∧
      ((setRaw b r c (.Options opts)).check = .ok () →
        pass1 ((r, c) :: rest) b options changed =
          pass1 rest (setRaw b r c (.Options opts)) (options + 1)
            (changed || (og != opts))))) := by
  intro rest b r c og opts options changed heq hopts
  subst hopts
  refine ⟨?_, ?_, ?_⟩
  · intro h0
    simp only [pass1, heq]
    rw [if_pos h0]
  · intro h1
    have h0 : ¬(og &&& exclMask b r c = 0) := by
      intro hz
      rw [hz] at h1
      exact absurd h1 (by decide)
    have hpow : og &&& exclMask b r c &&& ((og &&& exclMask b r c) - 1) = 0 := by
      obtain ⟨k, hk⟩ := (countOnes_eq_one_iff _).mp h1
      rw [hk]
      exact land_pred_of_pow2 k
    have hin := isOptions_inRange b r c (by rw [heq]; rfl)
    have hcell : getCell (setRaw b r c
        (.Value (trailingZeros (og &&& exclMask b r c) + 1))) r c =
        .Value (trailingZeros (og &&& exclMask b r c) + 1) :=
      getCell_setRaw_eq b r c _ hin.1 hin.2
    have hbit : og.testBit (trailingZeros (og &&& exclMask b r c)) = true := by
      have htb := testBit_trailingZeros _ h0
      rw [Nat.testBit_land] at htb
      simp only [Bool.and_eq_true] at htb
      exact htb.1
    simp only [pass1, heq]
    rw [if_neg h0, if_pos hpow]
    split
    · exact ⟨hcell, hbit, fun oc hoc => by simp at hoc⟩
    · refine ⟨?_, hbit, ?_⟩
      · exact refines_value _ _ r c _ (pass1_refines rest _ options true) hcell
      · intro oc hoc
        exact pass1_changed_mono rest _ options oc hoc
  · intro h2
    have h0 : ¬(og &&& exclMask b r c = 0) := by
      intro hz
      rw [hz] at h2
      exact absurd h2 (by decide)
    have hnpow : ¬(og &&& exclMask b r c &&& ((og &&& exclMask b r c) - 1) = 0) := by
      intro hz
      obtain ⟨k, hk⟩ := pow2_of_land_pred _ h0 hz
      rw [hk, countOnes_two_pow] at h2
      omega
    have hle : og &&& exclMask b r c ≤ og := Nat.and_le_left
    refine ⟨land_land_self og (exclMask b r c), by omega, ?_⟩
    intro hok
    simp only [pass1, heq]
    rw [if_neg h0, if_neg hnpow]
    simp only [hok]

/-- Witness for C5 at the board built from `sampleInput`, cell (2, 5):
its full option mask 511 narrows to 503 (digit 4 is fixed in the row and
block), a set of eight candidates, so the cell keeps the narrowed set,
the count increments and the changed flag is raised. -/
theorem C5_witness :
    pass1 [(2, 5)] (buildBoard sampleInput) 0 false =
      pass1 [] (setRaw (buildBoard sampleInput) 2 5 (.Options 503)) 1
        (false || ((511 : Nat) != 503)) :=
  ((C5_naked_single_step [] (buildBoard sampleInput) 2 5 511 503 0 false
    (by decide) (by decide)).2.2 (by decide)).2.2 (by decide)

/-- Refinement through the whole solver, proven by strong induction on
the number of open cells (the measure of the speculative recursion):
the speculative loop, the bounded iteration loop and `solve` itself all
refine their input board, whatever path they take. -/
theorem refines_strong : ∀ N : Nat,
    (∀ (b : Board) (r c value shifter o : Nat)
      (hr : r < 9) (hc : c < 9) (ho : (getCell b r c).isOptions = true),
      optionsCount b ≤ N → getCell b r c = .Options o →
      (∀ k, shifter.testBit k = true → o.testBit (k + value - 1) = true) →
      1 ≤ value →
      boardRefines b (speculate b r c value shifter hr hc ho).1) ∧
    (∀ (fuel : Nat) (b : Board), optionsCount b ≤ N →
      boardRefines b (solveLoop fuel b).1) ∧
    (∀ b : Board, optionsCount b ≤ N → boardRefines b (solve b).1) := by
  intro N
  induction N using Nat.strong_induction_on with
  | _ N ihN =>
      have hspec : ∀ (b : Board) (r c value shifter o : Nat)
          (hr : r < 9) (hc : c < 9) (ho : (getCell b r c).isOptions = true),
          optionsCount b ≤ N → getCell b r c = .Options o →
          (∀ k, shifter.testBit k = true → o.testBit (k + value - 1) = true) →
          1 ≤ value →
          boardRefines b (speculate b r c value shifter hr hc ho).1 := by
        intro b r c value shifter
        induction shifter using Nat.strong_induction_on generalizing value with
        | _ shifter ihs =>
            intro o hr hc ho hN hcell hinv hval
            rw [speculate]
            split
            · exact boardRefines_refl b
            · next hsh =>
                split
                · next hodd =>
                    dsimp only
                    have hlespec : cellLe (getCell b r c) (.Value value) := by
                      rw [hcell]
                      simp only [cellLe]
                      rw [Nat.one_shiftLeft]
                      apply (land_two_pow_ne_zero_iff_testBit o (value - 1)).mpr
                      have h0 := hinv 0 (by rw [Nat.testBit_zero]; simp [hodd])
                      have he : 0 + value - 1 = value - 1 := by omega
                      rw [he] at h0
                      exact h0
                    have hb0 : boardRefines b (setRaw b r c (.Value value)) :=
                      boardRefines_setRaw b r c _ hlespec
                    have hlt : optionsCount (setRaw b r c (.Value value)) < optionsCount b :=
                      optionsCount_setValue_lt b r c value hr hc ho
                    split
                    · exact boardRefines_refl b
                    · split
                      · next spec' u hsolve =>
                          have hNlt : optionsCount (setRaw b r c (.Value value)) < N := by
                            omega
                          have hsp := (ihN _ hNlt).2.2 (setRaw b r c (.Value value))
                            (Nat.le_refl _)
                          have hfst : (solve (setRaw b r c (.Value value))).1 = spec' := by
                            rw [hsolve]
                          rw [hfst] at hsp
                          exact boardRefines_trans _ _ _ hb0 hsp
                      · apply ihs (shifter / 2)
                          (Nat.div_lt_self (by omega) (by omega)) (value + 1) o hr hc ho
                          hN hcell ?_ (by omega)
                        intro k hk
                        have hkk := hinv (k + 1) (by rw [Nat.testBit_succ]; exact hk)
                        have he : k + 1 + value - 1 = k + (value + 1) - 1 := by omega
                        rw [he] at hkk
                        exact hkk
                · apply ihs (shifter / 2)
                    (Nat.div_lt_self (by omega) (by omega)) (value + 1) o hr hc ho
                    hN hcell ?_ (by omega)
                  intro k hk
                  have hkk := hinv (k + 1) (by rw [Nat.testBit_succ]; exact hk)
                  have he : k + 1 + value - 1 = k + (value + 1) - 1 := by omega
                  rw [he] at hkk
                  exact hkk
      have hloop : ∀ (fuel : Nat) (b : Board), optionsCount b ≤ N →
          boardRefines b (solveLoop fuel b).1 := by
        intro fuel
        induction fuel with
        | zero =>
            intro b hN
            rw [solveLoop]
            exact boardRefines_refl b
        | succ fuel ihf =>
            intro b hN
            rw [solveLoop]
            split
            · next b' s h1 =>
                have hfst : b' = (solveOne b).1 := by rw [h1]
                rw [hfst]
                exact solveOne_refines b
            · next b' options changed h1 =>
                have hb' : boardRefines b b' := by
                  have hfst : b' = (solveOne b).1 := by rw [h1]
                  rw [hfst]
                  exact solveOne_refines b
                have hcnt : optionsCount b' ≤ N := by
                  have hfst : b' = (solveOne b).1 := by rw [h1]
                  rw [hfst]
                  exact Nat.le_trans (solveOne_optionsCount_le b) hN
                split
                · exact hb'
                · split
                  · exact boardRefines_trans _ _ _ hb' (ihf b' hcnt)
                  · split
                    · next opts h2 =>
                        refine boardRefines_trans _ _ _ hb' ?_
                        apply hspec b' _ _ 1 opts opts _ _ _ hcnt h2 ?_ (by omega)
                        intro k hk
                        have he : k + 1 - 1 = k := by omega
                        rw [he]
                        exact hk
                    · exact boardRefines_trans _ _ _ hb' (ihf b' hcnt)
      refine ⟨hspec, hloop, ?_⟩
      intro b hN
      rw [solve]
      exact hloop 999 b hN

/-- `Board::solve` refines its input board on every path. -/
theorem solve_refines : ∀ b : Board, boardRefines b (solve b).1 :=
  fun b => (refines_strong (optionsCount b)).2.2 b (Nat.le_refl _)

/-- C7: cell transitions are monotone and one-directional: across every
call to `solve_one` and `solve`, success or error, the resulting board
refines the input — concretely, a cell `Fixed(d)` before the call is
still `Fixed(d)` after it (never reassigned, never demoted back to
`Candidates`), and a cell that went from `Candidates(S)` to `Fixed(d)`
was fixed to a digit whose bit lies in `S`. -/
theorem C7_monotone_transitions : ∀ b : Board,
    boardRefines b (solveOne b).1 ∧ boardRefines b (solve b).1 ∧
    (∀ b' : Board, boardRefines b b' → ∀ r c d, getCell b r c = .Value d →
      getCell b' r c = .Value d) ∧
    (∀ b' : Board, boardRefines b b' → ∀ r c S d, getCell b r c = .Options S →
      getCell b' r c = .Value d → (S &&& (1 <<< (d - 1))) ≠ 0) := by
  intro b
  refine ⟨solveOne_refines b, solve_refines b, ?_, ?_⟩
  · intro b' h r c d hv
    exact refines_value b b' r c d h hv
  · intro b' h r c S d hS hv
    have hle := h r c
    rw [hS, hv] at hle
    exact hle

/-- Witness for C7: the fixed 4 at row 2, column 3 of the sample board
survives a propagation sweep unchanged. -/
theorem C7_witness : getCell (solveOne (buildBoard sampleInput)).1 2 3 = .Value 4 :=
  (C7_monotone_transitions (buildBoard sampleInput)).2.2.1
    (solveOne (buildBoard sampleInput)).1
    (C7_monotone_transitions (buildBoard sampleInput)).1 2 3 4 (by decide)

/-- C2: `Board::solve` drives the propagation sweep inside the bounded
loop `for _ in 1..1000` — the loop body runs at most 999 times, within
the claimed ceiling of 1000 — and exhausting the bound without
resolution yields the distinct non-convergence engine error, different
from the ordinary exhausted-branches unsolvability error.  `solve` is a
total Lean function of the board, so it returns on every input rather
than looping forever. -/
theorem C2_iteration_ceiling :
    (∀ b : Board, solve b = solveLoop 999 b) ∧
    (∀ b : Board, solveLoop 0 b = (b, .error nonConvergenceMsg)) ∧
    nonConvergenceMsg ≠ allOptionsFailMsg ∧
    nonConvergenceMsg = "Solution did not close in 1000 iterations" := by
  refine ⟨?_, ?_, ?_, rfl⟩
  · intro b
    rw [solve]
  · intro b
    rw [solveLoop]
  · decide

/-- Digits listed by the bit walk start at the starting digit. -/
theorem bitDigits_ge : ∀ (shifter value d : Nat),
    d ∈ bitDigits value shifter → value ≤ d := by
  intro shifter
  induction shifter using Nat.strong_induction_on with
  | _ shifter ih =>
      intro value d hd
      match shifter with
      | 0 =>
          rw [bitDigits] at hd
          simp at hd
      | s + 1 =>
          rw [bitDigits] at hd
          rcases List.mem_append.mp hd with h1 | h2
          · split at h1
            · simp at h1
              omega
            · simp at h1
          · have := ih ((s + 1) / 2) (by omega) (value + 1) d h2
            omega

/-- The bit walk lists exactly the digits, counted from the starting
digit, whose relative bit is set in the shifter. -/
theorem bitDigits_mem : ∀ (shifter value d : Nat),
    d ∈ bitDigits value shifter ↔
      value ≤ d ∧ shifter.testBit (d - value) = true := by
  intro shifter
  induction shifter using Nat.strong_induction_on with
  | _ shifter ih =>
      intro value d
      match shifter with
      | 0 =>
          rw [bitDigits]
          simp [Nat.zero_testBit]
      | s + 1 =>
          rw [bitDigits, List.mem_append,
            ih ((s + 1) / 2) (by omega) (value + 1) d]
          constructor
          · rintro (h1 | ⟨h2a, h2b⟩)
            · split at h1
              · next hodd =>
                  simp only [List.mem_singleton] at h1
                  subst h1
                  refine ⟨Nat.le_refl _, ?_⟩
                  rw [Nat.sub_self, Nat.testBit_zero]
                  simp [hodd]
              · simp at h1
            · refine ⟨by omega, ?_⟩
              have hsub : d - value = (d - (value + 1)) + 1 := by omega
              rw [hsub, Nat.testBit_succ]
              exact h2b
          · rintro ⟨hle, htb⟩
            by_cases hdv : d = value
            · subst hdv
              rw [Nat.sub_self, Nat.testBit_zero] at htb
              left
              rw [if_pos (by simpa using htb)]
              exact List.mem_singleton.mpr rfl
            · right
              have hsub : d - value = (d - (value + 1)) + 1 := by omega
              rw [hsub, Nat.testBit_succ] at htb
              exact ⟨by omega, htb⟩

/-- The bit walk lists digits in strictly ascending order. -/
theorem bitDigits_pairwise : ∀ (shifter value : Nat),
    (bitDigits value shifter).Pairwise (· < ·) := by
  intro shifter
  induction shifter using Nat.strong_induction_on with
  | _ shifter ih =>
      intro value
      match shifter with
      | 0 =>
          rw [bitDigits]
          exact List.Pairwise.nil
      | s + 1 =>
          rw [bitDigits, List.pairwise_append]
          refine ⟨?_, ih ((s + 1) / 2) (by omega) (value + 1), ?_⟩
          · split
            · exact List.pairwise_singleton _ _
            · exact List.Pairwise.nil
          · intro a ha d hd
            have hged := bitDigits_ge ((s + 1) / 2) (value + 1) d hd
            split at ha
            · simp only [List.mem_singleton] at ha
              omega
            · simp at ha

/-- The speculative loop of `Board::solve` equals the list-driven
speculation of the spec, run on the digits of the shifter's bits. -/
theorem speculate_eq_spec : ∀ (shifter : Nat) (b : Board) (r c value : Nat)
    (hr : r < 9) (hc : c < 9) (ho : (getCell b r c).isOptions = true),
    speculate b r c value shifter hr hc ho =
      speculateSpec b r c (bitDigits value shifter) := by
  intro shifter
  induction shifter using Nat.strong_induction_on with
  | _ shifter ih =>
      intro b r c value hr hc ho
      rw [speculate]
      split
      · next hsh =>
          subst hsh
          rw [bitDigits]
          rfl
      · next hsh =>
          split
          · next hodd =>
              match shifter, hsh with
              | s + 1, _ =>
                  rw [bitDigits, if_pos hodd, List.singleton_append, speculateSpec]
                  cases hchk : (setRaw b r c (Cell.Value value)).check with
                  | error e => simp only [hchk]
                  | ok u =>
                      simp only [hchk]
                      rcases hsol : solve (setRaw b r c (Cell.Value value)) with ⟨spec', res⟩
                      cases res with
                      | ok u2 => simp only [hsol]
                      | error e =>
                          simp only [hsol]
                          exact ih ((s + 1) / 2) (by omega) b r c (value + 1) hr hc ho
          · next hodd =>
              match shifter, hsh with
              | s + 1, _ =>
                  rw [bitDigits, if_neg hodd, List.nil_append]
                  exact ih ((s + 1) / 2) (by omega) b r c (value + 1) hr hc ho

/-- C6: during speculation the solver tries the branch cell's candidate
digits in ascending order — the digits walked by the shifter loop are
exactly those whose bits are set, listed ascending; for each digit the
entire board is copied and only the branch cell changes in the copy; the
loop equals the spec's list-driven recursion, which adopts the first
successfully solved copy's cells and returns at once, and returns the
exhausted-branches error when the digits run out. -/
theorem C6_speculative_recursion : ∀ (b : Board) (r c value shifter : Nat)
    (hr : r < 9) (hc : c < 9) (ho : (getCell b r c).isOptions = true),
    speculate b r c value shifter hr hc ho =
      speculateSpec b r c (bitDigits value shifter) ∧
    (∀ d, d ∈ bitDigits value shifter ↔
      value ≤ d ∧ shifter.testBit (d - value) = true) ∧
    (bitDigits value shifter).Pairwise (· < ·) ∧
    (∀ d r' c', r' ≠ r ∨ c' ≠ c →
      getCell (setRaw b r c (.Value d)) r' c' = getCell b r' c') ∧
    speculateSpec b r c [] = (b, .error allOptionsFailMsg) := by
  intro b r c value shifter hr hc ho
  refine ⟨speculate_eq_spec shifter b r c value hr hc ho,
    fun d => bitDigits_mem shifter value d,
    bitDigits_pairwise shifter value, ?_, rfl⟩
  intro d r' c' hne
  exact getCell_setRaw_ne b r c _ r' c' hne

/-- Witness for C6 at the all-blank board, branch cell (0, 0), digit
walk starting at 1 over shifter 5 (bits for digits 1 and 3). -/
theorem C6_witness :
    speculate allBlank 0 0 1 5 (by decide) (by decide) (by decide) =
      speculateSpec allBlank 0 0 (bitDigits 1 5) :=
  (C6_speculative_recursion allBlank 0 0 1 5 (by decide) (by decide) (by decide)).1

/-- Started with the changed flag raised, the hidden-single pass reports
the flag raised on every success. -/
theorem pass2_changed_mono : ∀ (l : List (Nat × Nat)) (b : Board) (o : Nat)
    (oc : Nat × Bool), (pass2 l b o true).2 = .ok oc → oc.2 = true := by
  intro l
  induction l with
  | nil =>
      intro b o oc h
      simp only [pass2] at h
      obtain rfl : (o, true) = oc := by simpa using h
      rfl
  | cons rc rest ih =>
      intro b o oc h
      obtain ⟨r, c⟩ := rc
      simp only [pass2] at h
      split at h
      · exact ih b o oc h
      · split at h
        · exact ih b o oc h
        · split at h
          · simp at h
          · exact ih _ _ oc h

/-- A naked-single pass that reports no change leaves the board exactly
as it was, and certifies that every `Options` cell it scanned was
already a fixed point of its exclusion mask. -/
theorem pass1_stall : ∀ (l : List (Nat × Nat)) (b : Board) (o : Nat) (ch : Bool)
    (b' : Board) (o' : Nat), pass1 l b o ch = (b', .ok (o', false)) →
    b' = b ∧ ch = false ∧
    (∀ rc ∈ l, ∀ og, getCell b rc.1 rc.2 = .Options og →
      og &&& exclMask b rc.1 rc.2 = og) := by
  intro l
  induction l with
  | nil =>
      intro b o ch b' o' h
      simp only [pass1] at h
      simp only [Prod.mk.injEq, Except.ok.injEq] at h
      exact ⟨h.1.symm, h.2.2, by simp⟩
  | cons rc rest ih =>
      intro b o ch b' o' h
      obtain ⟨r, c⟩ := rc
      simp only [pass1] at h
      split at h
      · next hval =>
          obtain ⟨hb, hch, hrest⟩ := ih b o ch b' o' h
          refine ⟨hb, hch, ?_⟩
          intro x hx og hog
          rcases List.mem_cons.mp hx with rfl | hx'
          · rw [hval] at hog
            simp at hog
          · exact hrest x hx' og hog
      · next og heq =>
          split at h
          · simp at h
          · next h0 =>
              split at h
              · split at h
                · simp at h
                · have := pass1_changed_mono rest _ o (o', false) (by rw [h])
                  simp at this
              · next hnpow =>
                  split at h
                  · simp at h
                  · obtain ⟨hb2, hflag, hrest⟩ := ih _ _ _ b' o' h
                    have hch : ch = false := by
                      rcases Bool.eq_false_or_eq_true ch with hcc | hcc
                      · rw [hcc, Bool.true_or] at hflag
                        simp at hflag
                      · exact hcc
                    have hogeq : og = og &&& exclMask b r c := by
                      rcases Bool.eq_false_or_eq_true (og != og &&& exclMask b r c)
                        with hbe | hbe
                      · rw [hbe, Bool.or_true] at hflag
                        simp at hflag
                      · simpa using hbe
                    have hin := isOptions_inRange b r c (by rw [heq]; rfl)
                    have hsame : setRaw b r c (.Options (og &&& exclMask b r c)) = b := by
                      have hx : Cell.Options (og &&& exclMask b r c) = getCell b r c := by
                        rw [heq, ← hogeq]
                      rw [hx]
                      exact setRaw_self b r c hin.1 hin.2
                    rw [hsame] at hb2 hrest
                    refine ⟨hb2, hch, ?_⟩
                    intro x hx og' hog'
                    rcases List.mem_cons.mp hx with rfl | hx'
                    · rw [heq] at hog'
                      simp only [Cell.Options.injEq] at hog'
                      rw [← hog', ← hogeq]
                    · exact hrest x hx' og' hog'

/-- A hidden-single pass that reports no change leaves the board exactly
as it was. -/
theorem pass2_stall : ∀ (l : List (Nat × Nat)) (b : Board) (o : Nat) (ch : Bool)
    (b' : Board) (o' : Nat), pass2 l b o ch = (b', .ok (o', false)) →
    b' = b ∧ ch = false := by
  intro l
  induction l with
  | nil =>
      intro b o ch b' o' h
      simp only [pass2] at h
      simp only [Prod.mk.injEq, Except.ok.injEq] at h
      exact ⟨h.1.symm, h.2.2⟩
  | cons rc rest ih =>
      intro b o ch b' o' h
      obtain ⟨r, c⟩ := rc
      simp only [pass2] at h
      split at h
      · exact ih b o ch b' o' h
      · split at h
        · exact ih b o ch b' o' h
        · split at h
          · simp at h
          · have := pass2_changed_mono rest _ _ (o', false) (by rw [h])
            simp at this

/-- A propagation sweep that reports no change leaves the board exactly
as it was, certifies it validates, and certifies every `Options` cell as
a fixed point of its exclusion mask. -/
theorem solveOne_stall : ∀ (b b' : Board) (n : Nat),
    solveOne b = (b', .ok (n, false)) →
    b' = b ∧ b.check = .ok () ∧
    (∀ r c, r < 9 → c < 9 → ∀ og, getCell b r c = .Options og →
      og &&& exclMask b r c = og) := by
  intro b b' n h
  rw [solveOne] at h
  split at h
  · simp at h
  · next b1 options changed h1 =>
      split at h
      · simp at h
      · next hchk1 =>
          split at h
          · simp at h
          · next b2 oc h2 =>
              split at h
              · simp at h
              · next hchk2 =>
                  simp only [Prod.mk.injEq, Except.ok.injEq] at h
                  obtain ⟨hb2, hoc⟩ := h
                  rw [hoc] at h2
                  obtain ⟨hb21, hch1⟩ := pass2_stall rcList b1 options changed b2 n h2
                  rw [hch1] at h1
                  obtain ⟨hb1, _, hfix⟩ := pass1_stall rcList b 0 false b1 options h1
                  subst hb1
                  subst hb21
                  subst hb2
                  refine ⟨rfl, hchk1, ?_⟩
                  intro r c hr hc og hog
                  exact hfix (r, c) ((mem_rcList r c).mpr ⟨hr, hc⟩) og hog

/-- The naked-single pass never writes positions it does not scan. -/
theorem pass1_untouched : ∀ (l : List (Nat × Nat)) (b : Board) (o : Nat) (ch : Bool)
    (r c : Nat), (r, c) ∉ l →
    getCell (pass1 l b o ch).1 r c = getCell b r c := by
  intro l
  induction l with
  | nil => intro b o ch r c _; rfl
  | cons rc rest ih =>
      intro b o ch r c hmem
      obtain ⟨r0, c0⟩ := rc
      have hne : r ≠ r0 ∨ c ≠ c0 := by
        rcases pair_ne_split (r, c) r0 c0 (fun hx => hmem (hx ▸ List.mem_cons_self _ _))
          with h | h
        · exact Or.inl h
        · exact Or.inr h
      have hrest : (r, c) ∉ rest := fun hx => hmem (List.mem_cons_of_mem _ hx)
      simp only [pass1]
      split
      · exact ih b o ch r c hrest
      · split
        · rfl
        · split
          · split
            · exact getCell_setRaw_ne b r0 c0 _ r c hne
            · rw [ih _ o true r c hrest]
              exact getCell_setRaw_ne b r0 c0 _ r c hne
          · split
            · exact getCell_setRaw_ne b r0 c0 _ r c hne
            · rw [ih _ _ _ r c hrest]
              exact getCell_setRaw_ne b r0 c0 _ r c hne

/-- The hidden-single pass never writes positions it does not scan. -/
theorem pass2_untouched : ∀ (l : List (Nat × Nat)) (b : Board) (o : Nat) (ch : Bool)
    (r c : Nat), (r, c) ∉ l →
    getCell (pass2 l b o ch).1 r c = getCell b r c := by
  intro l
  induction l with
  | nil => intro b o ch r c _; rfl
  | cons rc rest ih =>
      intro b o ch r c hmem
      obtain ⟨r0, c0⟩ := rc
      have hne : r ≠ r0 ∨ c ≠ c0 := by
        rcases pair_ne_split (r, c) r0 c0 (fun hx => hmem (hx ▸ List.mem_cons_self _ _))
          with h | h
        · exact Or.inl h
        · exact Or.inr h
      have hrest : (r, c) ∉ rest := fun hx => hmem (List.mem_cons_of_mem _ hx)
      simp only [pass2]
      split
      · exact ih b o ch r c hrest
      · split
        · exact ih b o ch r c hrest
        · split
          · exact getCell_setRaw_ne b r0 c0 _ r c hne
          · rw [ih _ _ _ r c hrest]
            exact getCell_setRaw_ne b r0 c0 _ r c hne

/-- A successful naked-single pass returns the starting count plus the
number of scanned positions its result board still holds as `Options`
(positions assumed distinct). -/
theorem pass1_count : ∀ (l : List (Nat × Nat)) (b : Board) (o : Nat) (ch : Bool)
    (b' : Board) (o' : Nat) (ch' : Bool), l.Nodup →
    pass1 l b o ch = (b', .ok (o', ch')) →
    o' = o + l.countP (fun rc => (getCell b' rc.1 rc.2).isOptions) := by
  intro l
  induction l with
  | nil =>
      intro b o ch b' o' ch' _ h
      simp only [pass1] at h
      simp only [Prod.mk.injEq, Except.ok.injEq] at h
      simp [h.2.1]
  | cons rc rest ih =>
      intro b o ch b' o' ch' hnd h
      obtain ⟨r0, c0⟩ := rc
      obtain ⟨hnotmem, hndr⟩ := List.nodup_cons.mp hnd
      simp only [pass1] at h
      split at h
      · next hval =>
          have hfst : b' = (pass1 rest b o ch).1 := by rw [h]
          have hneg : ¬((fun rc : Nat × Nat =>
              (getCell b' rc.1 rc.2).isOptions) (r0, c0) = true) := by
            simp only
            rw [hfst, pass1_untouched rest b o ch r0 c0 hnotmem, hval]
            simp [Cell.isOptions]
          rw [List.countP_cons_of_neg (fun rc : Nat × Nat => (getCell b' rc.1 rc.2).isOptions) rest hneg]
          exact ih b o ch b' o' ch' hndr h
      · next og heq =>
          have hin := isOptions_inRange b r0 c0 (by rw [heq]; rfl)
          split at h
          · simp at h
          · split at h
            · split at h
              · simp at h
              · have hfst : b' = (pass1 rest (setRaw b r0 c0
                    (.Value (trailingZeros (og &&& exclMask b r0 c0) + 1))) o true).1 := by
                  rw [h]
                have hneg : ¬((fun rc : Nat × Nat =>
                    (getCell b' rc.1 rc.2).isOptions) (r0, c0) = true) := by
                  simp only
                  rw [hfst, pass1_untouched _ _ o true r0 c0 hnotmem,
                    getCell_setRaw_eq b r0 c0 _ hin.1 hin.2]
                  simp [Cell.isOptions]
                rw [List.countP_cons_of_neg (fun rc : Nat × Nat => (getCell b' rc.1 rc.2).isOptions) rest hneg]
                exact ih (setRaw b r0 c0
                  (.Value (trailingZeros (og &&& exclMask b r0 c0) + 1)))
                  o true b' o' ch' hndr h
            · split at h
              · simp at h
              · have hfst : b' = (pass1 rest (setRaw b r0 c0
                    (.Options (og &&& exclMask b r0 c0))) (o + 1)
                    (ch || (og != og &&& exclMask b r0 c0))).1 := by
                  rw [h]
                have hpos : (fun rc : Nat × Nat =>
                    (getCell b' rc.1 rc.2).isOptions) (r0, c0) = true := by
                  simp only
                  rw [hfst, pass1_untouched _ _ _ _ r0 c0 hnotmem,
                    getCell_setRaw_eq b r0 c0 _ hin.1 hin.2]
                  rfl
                rw [List.countP_cons_of_pos (fun rc : Nat × Nat => (getCell b' rc.1 rc.2).isOptions) rest hpos]
                have hih := ih (setRaw b r0 c0 (.Options (og &&& exclMask b r0 c0)))
                  (o + 1) (ch || (og != og &&& exclMask b r0 c0)) b' o' ch' hndr h
                omega

/-- A successful hidden-single pass balances its decrements against the
cells it fixes: starting from a count at least the number of scanned
`Options` cells, the returned count plus the input board's scanned
`Options` cells equals the input count plus the result board's. -/
theorem pass2_count : ∀ (l : List (Nat × Nat)) (b : Board) (o : Nat) (ch : Bool)
    (b' : Board) (o' : Nat) (ch' : Bool), l.Nodup →
    l.countP (fun rc => (getCell b rc.1 rc.2).isOptions) ≤ o →
    pass2 l b o ch = (b', .ok (o', ch')) →
    o' + l.countP (fun rc => (getCell b rc.1 rc.2).isOptions) =
      o + l.countP (fun rc => (getCell b' rc.1 rc.2).isOptions) := by
  intro l
  induction l with
  | nil =>
      intro b o ch b' o' ch' _ _ h
      simp only [pass2] at h
      simp only [Prod.mk.injEq, Except.ok.injEq] at h
      simp [h.2.1]
  | cons rc rest ih =>
      intro b o ch b' o' ch' hnd hle h
      obtain ⟨r0, c0⟩ := rc
      obtain ⟨hnotmem, hndr⟩ := List.nodup_cons.mp hnd
      simp only [pass2] at h
      split at h
      · next hval =>
          have hnegb : ¬((fun rc : Nat × Nat =>
              (getCell b rc.1 rc.2).isOptions) (r0, c0) = true) := by
            simp only
            rw [hval]
            simp [Cell.isOptions]
          have hfst : b' = (pass2 rest b o ch).1 := by rw [h]
          have hnegb' : ¬((fun rc : Nat × Nat =>
              (getCell b' rc.1 rc.2).isOptions) (r0, c0) = true) := by
            simp only
            rw [hfst, pass2_untouched rest b o ch r0 c0 hnotmem, hval]
            simp [Cell.isOptions]
          rw [List.countP_cons_of_neg (fun rc : Nat × Nat => (getCell b rc.1 rc.2).isOptions) rest hnegb, List.countP_cons_of_neg (fun rc : Nat × Nat => (getCell b' rc.1 rc.2).isOptions) rest hnegb']
          apply ih b o ch b' o' ch' hndr ?_ h
          rw [List.countP_cons_of_neg (fun rc : Nat × Nat => (getCell b rc.1 rc.2).isOptions) rest hnegb] at hle
          exact hle
      · next opts heq =>
          have hin := isOptions_inRange b r0 c0 (by rw [heq]; rfl)
          have hposb : (fun rc : Nat × Nat =>
              (getCell b rc.1 rc.2).isOptions) (r0, c0) = true := by
            simp only
            rw [heq]
            rfl
          rw [List.countP_cons_of_pos (fun rc : Nat × Nat => (getCell b rc.1 rc.2).isOptions) rest hposb] at hle ⊢
          split at h
          · have hfst : b' = (pass2 rest b o ch).1 := by rw [h]
            have hposb' : (fun rc : Nat × Nat =>
                (getCell b' rc.1 rc.2).isOptions) (r0, c0) = true := by
              simp only
              rw [hfst, pass2_untouched rest b o ch r0 c0 hnotmem, heq]
              rfl
            rw [List.countP_cons_of_pos (fun rc : Nat × Nat => (getCell b' rc.1 rc.2).isOptions) rest hposb']
            have hih := ih b o ch b' o' ch' hndr (by omega) h
            omega
          · next value heqf =>
              split at h
              · simp at h
              · have hcong : rest.countP (fun rc =>
                    (getCell (setRaw b r0 c0 (.Value value)) rc.1 rc.2).isOptions) =
                    rest.countP (fun rc => (getCell b rc.1 rc.2).isOptions) := by
                  apply List.countP_congr
                  intro x hx
                  have hne : x ≠ (r0, c0) := fun hxx => hnotmem (hxx ▸ hx)
                  rw [getCell_setRaw_ne b r0 c0 _ x.1 x.2 (pair_ne_split x r0 c0 hne)]
                have hfst : b' = (pass2 rest (setRaw b r0 c0 (.Value value))
                    (o - 1) true).1 := by
                  rw [h]
                have hnegb' : ¬((fun rc : Nat × Nat =>
                    (getCell b' rc.1 rc.2).isOptions) (r0, c0) = true) := by
                  simp only
                  rw [hfst, pass2_untouched _ _ (o - 1) true r0 c0 hnotmem,
                    getCell_setRaw_eq b r0 c0 _ hin.1 hin.2]
                  simp [Cell.isOptions]
                rw [List.countP_cons_of_neg (fun rc : Nat × Nat => (getCell b' rc.1 rc.2).isOptions) rest hnegb']
                have hih := ih (setRaw b r0 c0 (.Value value)) (o - 1) true b' o' ch'
                  hndr (by rw [hcong]; omega) h
                rw [hcong] at hih
                omega

/-- A successful sweep returns exactly the number of `Options` cells
remaining on its result board. -/
theorem solveOne_count : ∀ (b b' : Board) (n : Nat) (ch : Bool),
    solveOne b = (b', .ok (n, ch)) → n = optionsCount b' := by
  intro b b' n ch h
  rw [solveOne] at h
  split at h
  · simp at h
  · next b1 options changed h1 =>
      split at h
      · simp at h
      · split at h
        · simp at h
        · next b2 oc h2 =>
            split at h
            · simp at h
            · simp only [Prod.mk.injEq, Except.ok.injEq] at h
              obtain ⟨hb2, hoc⟩ := h
              subst hb2
              have hcnt1 : options = optionsCount b1 := by
                have := pass1_count rcList b 0 false b1 options changed rcList_nodup h1
                simpa [optionsCount] using this
              rw [hoc] at h2
              have hcnt2 := pass2_count rcList b1 options changed b2 n ch rcList_nodup
                (by rw [hcnt1]; exact Nat.le_refl _) h2
              have he1 : rcList.countP (fun rc => (getCell b1 rc.1 rc.2).isOptions) =
                  optionsCount b1 := rfl
              rw [he1, ← hcnt1] at hcnt2
              have he2 : rcList.countP (fun rc => (getCell b2 rc.1 rc.2).isOptions) =
                  optionsCount b2 := rfl
              rw [he2] at hcnt2
              omega

/-- A mask below `2 ^ k` has at most `k` set bits. -/
theorem countOnes_le_of_lt_two_pow : ∀ (k x : Nat), x < 2 ^ k → countOnes x ≤ k := by
  intro k
  induction k with
  | zero =>
      intro x hx
      have hx0 : x = 0 := by omega
      subst hx0
      exact Nat.le_refl _
  | succ k ih =>
      intro x hx
      rw [countOnes_unfold]
      by_cases h0 : x = 0
      · simp [h0]
      · rw [if_neg h0]
        have hpow : (2 : Nat) ^ (k + 1) = 2 * 2 ^ k := by ring
        have hhalf : x / 2 < 2 ^ k := by omega
        have := ih (x / 2) hhalf
        omega

/-- The exclusion mask of a cell stays inside the nine-bit universe on a
board with well-formed digits. -/
theorem exclMask_lt_512 : ∀ (b : Board) (r c : Nat), WfDigits b → r < 9 → c < 9 →
    exclMask b r c < 512 := by
  intro b r c hwf hr hc
  have hrowdig := wf_view_digits_row b hwf r hr
  rw [exclMask, maskView, maskGo_eq_maskVals]
  calc maskVals (valuesOf (rowCells b r)) ALL &&& _ &&& _
      ≤ maskVals (valuesOf (rowCells b r)) ALL &&& _ := Nat.and_le_left
    _ ≤ maskVals (valuesOf (rowCells b r)) ALL := Nat.and_le_left
    _ < 512 := maskVals_lt_512 _ ALL hrowdig (by decide)

/-- The branch-selection fold returns the running minimum of the
candidate counts. -/
theorem pickFold_min : ∀ (b : Board) (l : List (Nat × Nat)) (acc : Nat × Nat × Nat),
    (List.foldl (pickStep b) acc l).2.2 ≤ acc.2.2 ∧
    ∀ rc ∈ l, ∀ o, getCell b rc.1 rc.2 = .Options o →
      (List.foldl (pickStep b) acc l).2.2 ≤ countOnes o := by
  intro b l
  induction l with
  | nil => intro acc; exact ⟨Nat.le_refl _, by simp⟩
  | cons x rest ih =>
      intro acc
      rw [List.foldl_cons]
      have hstep2 : (pickStep b acc x).2.2 ≤ acc.2.2 ∧
          (∀ o, getCell b x.1 x.2 = .Options o →
            (pickStep b acc x).2.2 ≤ countOnes o) := by
        rw [pickStep]
        split
        · next o' heq =>
            split
            · next hle =>
                refine ⟨hle, ?_⟩
                intro o ho
                rw [heq] at ho
                simp only [Cell.Options.injEq] at ho
                rw [ho]
            · next hnle =>
                refine ⟨Nat.le_refl _, ?_⟩
                intro o ho
                rw [heq] at ho
                simp only [Cell.Options.injEq] at ho
                rw [ho] at hnle
                omega
        · next heq =>
            refine ⟨Nat.le_refl _, ?_⟩
            intro o ho
            rw [heq] at ho
            simp at ho
      obtain ⟨ih1, ih2⟩ := ih (pickStep b acc x)
      refine ⟨Nat.le_trans ih1 hstep2.1, ?_⟩
      intro rc hrc o ho
      rcases List.mem_cons.mp hrc with rfl | hrc'
      · exact Nat.le_trans ih1 (hstep2.2 o ho)
      · exact ih2 rc hrc' o ho

/-- Characterization of the branch-selection fold: either no scanned
`Options` cell has a count within the accumulator's and the accumulator
is returned unchanged, or the result is the last scanned `Options` cell
that achieved the running minimum — no cell after it has a count at or
below the recorded one. -/
theorem pickFold_char : ∀ (b : Board) (l : List (Nat × Nat)) (acc : Nat × Nat × Nat),
    (List.foldl (pickStep b) acc l = acc ∧
      ∀ rc ∈ l, ∀ o, getCell b rc.1 rc.2 = .Options o →
        ¬(countOnes o ≤ acc.2.2)) ∨
    (∃ l1 rc o l2, l = l1 ++ rc :: l2 ∧ getCell b rc.1 rc.2 = .Options o ∧
      List.foldl (pickStep b) acc l = (rc.1, rc.2, countOnes o) ∧
      ∀ x ∈ l2, ∀ o', getCell b x.1 x.2 = .Options o' →
        ¬(countOnes o' ≤ countOnes o)) := by
  intro b l
  induction l with
  | nil => intro acc; left; exact ⟨rfl, by simp⟩
  | cons x rest ih =>
      intro acc
      rcases ih (pickStep b acc x) with ⟨hres, hnone⟩ | ⟨l1, rc, o, l2, hsplit, hcell, hres, hlast⟩
      · by_cases hx : ∃ o, getCell b x.1 x.2 = .Options o ∧ countOnes o ≤ acc.2.2
        · obtain ⟨o, hxo, hxle⟩ := hx
          right
          have hstep : pickStep b acc x = (x.1, x.2, countOnes o) := by
            rw [pickStep, hxo]
            exact if_pos hxle
          refine ⟨[], x, o, rest, by simp, hxo, ?_, ?_⟩
          · rw [List.foldl_cons, hres, hstep]
          · intro y hy o' hyo
            have hn := hnone y hy o' hyo
            rw [hstep] at hn
            exact hn
        · have hstep : pickStep b acc x = acc := by
            rw [pickStep]
            split
            · next o' heq =>
                split
                · next hle =>
                    exfalso
                    exact hx ⟨o', heq, hle⟩
                · rfl
            · rfl
          left
          rw [List.foldl_cons, hres, hstep]
          refine ⟨rfl, ?_⟩
          intro y hy o' hyo
          rcases List.mem_cons.mp hy with rfl | hy'
          · intro hle
            exact hx ⟨o', hyo, hle⟩
          · have hn := hnone y hy' o' hyo
            rw [hstep] at hn
            exact hn
      · right
        refine ⟨x :: l1, rc, o, l2, by rw [hsplit]; rfl, hcell, ?_, hlast⟩
        rw [List.foldl_cons, hres]

/-- C1 (amended): when the solver stalls, the branch cell selected by
the row-major scan is an `Options` cell with the fewest remaining
candidates among all `Options` cells of the board, and when several
cells tie for the fewest the scan keeps the last such cell it
encounters — not the first, since the comparison `count_ones <= count`
also fires on equality. -/
theorem C1_branch_selection : ∀ (b0 b : Board) (n : Nat),
    WfDigits b0 → solveOne b0 = (b, .ok (n, false)) → 0 < n →
    ∃ o, getCell b (pickBranch b).1 (pickBranch b).2.1 = .Options o ∧
      (pickBranch b).2.2 = countOnes o ∧
      (∀ rc ∈ rcList, ∀ o', getCell b rc.1 rc.2 = .Options o' →
        countOnes o ≤ countOnes o') ∧
      (∃ l1 l2, rcList = l1 ++ ((pickBranch b).1, (pickBranch b).2.1) :: l2 ∧
        ∀ rc ∈ l2, ∀ o', getCell b rc.1 rc.2 = .Options o' →
          countOnes o < countOnes o') := by
  intro b0 b n hwf hstall hn
  obtain ⟨hbb, hchk, hfix⟩ := solveOne_stall b0 b n hstall
  subst hbb
  have hbound : ∀ rc ∈ rcList, ∀ o', getCell b rc.1 rc.2 = .Options o' →
      countOnes o' ≤ 9 := by
    intro rc hrc o' ho'
    have hb9 := (mem_rcList rc.1 rc.2).mp (by rw [Prod.mk.eta]; exact hrc)
    have hfixrc := hfix rc.1 rc.2 hb9.1 hb9.2 o' ho'
    have hle : o' ≤ exclMask b rc.1 rc.2 := by
      conv_lhs => rw [← hfixrc]
      exact Nat.and_le_right
    have hlt := exclMask_lt_512 b rc.1 rc.2 hwf hb9.1 hb9.2
    exact countOnes_le_of_lt_two_pow 9 o' (by omega)
  have hcount : n = optionsCount b := solveOne_count b b n false hstall
  have hex : ∃ rc ∈ rcList, (getCell b rc.1 rc.2).isOptions = true := by
    rw [← List.countP_pos]
    rw [hcount] at hn
    exact hn
  obtain ⟨rc0, hrc0, hopt0⟩ := hex
  have hex0 : ∃ o0, getCell b rc0.1 rc0.2 = .Options o0 := by
    match hx : getCell b rc0.1 rc0.2 with
    | .Options o0 => exact ⟨o0, rfl⟩
    | .Value v =>
        rw [hx] at hopt0
        simp [Cell.isOptions] at hopt0
  obtain ⟨o0, ho0⟩ := hex0
  rcases pickFold_char b rcList (0, 0, 9) with ⟨hres, hnone⟩ |
    ⟨l1, rcm, o, l2, hsplit, hcell, hres, hlast⟩
  · exfalso
    exact hnone rc0 hrc0 o0 ho0 (hbound rc0 hrc0 o0 ho0)
  · have hpb : pickBranch b = (rcm.1, rcm.2, countOnes o) := by
      rw [pickBranch, hres]
    refine ⟨o, ?_, ?_, ?_, ?_⟩
    · rw [hpb]
      exact hcell
    · rw [hpb]
    · intro rc hrc o' ho'
      have hmin := (pickFold_min b rcList (0, 0, 9)).2 rc hrc o' ho'
      rw [hres] at hmin
      exact hmin
    · refine ⟨l1, l2, ?_, ?_⟩
      · rw [hpb]
        exact hsplit
      · intro rc hrc o' ho'
        have := hlast rc hrc o' ho'
        omega

/-- Counterexample to C1 as stated: on the stalled all-blank board every
cell is an `Options` cell with nine candidates, so all 81 cells tie for
the fewest; the first such cell in the row-major scan is (0, 0), yet the
scan selects (8, 8) — the last, because `count_ones <= count` also
fires on ties. -/
theorem C1_counterexample :
    solveOne allBlank = (allBlank, .ok (81, false)) ∧
    rcList.take 1 = [(0, 0)] ∧
    (∀ rc ∈ rcList, getCell allBlank rc.1 rc.2 = .Options ALL) ∧
    countOnes ALL = 9 ∧
    pickBranch allBlank = (8, 8, 9) := by
  refine ⟨by decide, by decide, by decide, by decide, by decide⟩

/-- Witness for C1 (amended) on the stalled all-blank board: the cell the
scan selects is indeed an `Options` cell. -/
theorem C1_witness :
    (getCell allBlank (pickBranch allBlank).1 (pickBranch allBlank).2.1).isOptions
      = true := by
  obtain ⟨o, ho, _⟩ := C1_branch_selection allBlank allBlank 81
    (by unfold WfDigits; decide) (by decide) (by decide)
  rw [ho]
  rfl

/-- The fixed digits of a view starting with a fixed cell. -/
theorem valuesOf_cons_value : ∀ (v : Nat) (t : List Cell),
    valuesOf (.Value v :: t) = v :: valuesOf t := by
  intro v t
  rfl

/-- The fixed digits of a view starting with a candidates cell. -/
theorem valuesOf_cons_options : ∀ (o : Nat) (t : List Cell),
    valuesOf (.Options o :: t) = valuesOf t := by
  intro o t
  rfl

/-- Replacing an `Options` cell of a view by a fixed value inserts that
value into the view's fixed-digit list, leaving the other digits in
place on either side. -/
theorem valuesOf_set_value : ∀ (l : List Cell) (idx o v : Nat),
    l[idx]? = some (.Options o) →
    ∃ l1 l2, valuesOf l = l1 ++ l2 ∧
      valuesOf (l.set idx (.Value v)) = l1 ++ v :: l2 := by
  intro l
  induction l with
  | nil => intro idx o v h; simp at h
  | cons x rest ih =>
      intro idx o v h
      match idx with
      | 0 =>
          rw [List.getElem?_cons_zero, Option.some.injEq] at h
          subst h
          refine ⟨[], valuesOf rest, ?_, ?_⟩
          · rw [valuesOf_cons_options, List.nil_append]
          · rw [List.set_cons_zero, valuesOf_cons_value, List.nil_append]
      | idx' + 1 =>
          rw [List.getElem?_cons_succ] at h
          obtain ⟨l1, l2, h1, h2⟩ := ih idx' o v h
          match x with
          | .Value w =>
              refine ⟨w :: l1, l2, ?_, ?_⟩
              · rw [valuesOf_cons_value, h1, List.cons_append]
              · rw [List.set_cons_succ, valuesOf_cons_value, h2, List.cons_append]
          | .Options w =>
              refine ⟨l1, l2, ?_, ?_⟩
              · rw [valuesOf_cons_options, h1]
              · rw [List.set_cons_succ, valuesOf_cons_options, h2]

/-- Fixing a fresh value in place of an `Options` cell keeps the view's
fixed digits duplicate-free. -/
theorem nodup_valuesOf_set : ∀ (l : List Cell) (idx o v : Nat),
    l[idx]? = some (.Options o) → (valuesOf l).Nodup → v ∉ valuesOf l →
    (valuesOf (l.set idx (.Value v))).Nodup := by
  intro l idx o v h hnd hnm
  obtain ⟨l1, l2, h1, h2⟩ := valuesOf_set_value l idx o v h
  rw [h2, List.nodup_middle, List.nodup_cons, ← h1]
  exact ⟨hnm, hnd⟩

/-- Indexing a row view. -/
theorem rowCells_getElem : ∀ (b : Board) (r j : Nat), j < 9 →
    (rowCells b r)[j]? = some (getCell b r j) := by
  intro b r j hj
  rw [rowCells, List.getElem?_map, List.getElem?_range hj, Option.map_some']

/-- Indexing a column view. -/
theorem colCells_getElem : ∀ (b : Board) (c j : Nat), j < 9 →
    (colCells b c)[j]? = some (getCell b j c) := by
  intro b c j hj
  rw [colCells, List.getElem?_map, List.getElem?_range hj, Option.map_some']

/-- Indexing a subsquare view. -/
theorem ssCells_getElem : ∀ (b : Board) (sr sc j : Nat), j < 9 →
    (ssCells b sr sc)[j]? = some (getCell b (sr * 3 + j / 3) (sc * 3 + j % 3)) := by
  intro b sr sc j hj
  rw [ssCells, List.getElem?_map, List.getElem?_range hj, Option.map_some']

/-- A single-cell write leaves every other row view untouched. -/
theorem rowCells_setRaw_ne : ∀ (b : Board) (r c : Nat) (v : Cell) (i : Nat), i ≠ r →
    rowCells (setRaw b r c v) i = rowCells b i := by
  intro b r c v i hi
  rw [rowCells, rowCells]
  apply List.map_congr_left
  intro j _
  exact getCell_setRaw_ne b r c v i j (Or.inl hi)

/-- A single-cell write updates its own row view pointwise. -/
theorem rowCells_setRaw_self : ∀ (b : Board) (r c : Nat) (v : Cell),
    r < b.cells.length → c < (b.cells.getD r []).length → c < 9 →
    rowCells (setRaw b r c v) r = (rowCells b r).set c v := by
  intro b r c v hrL hcL hc9
  have hlen : (rowCells b r).length = 9 := by
    rw [rowCells, List.length_map, List.length_range]
  apply List.ext_getElem?
  intro j
  by_cases hj : j < 9
  · rw [rowCells_getElem _ r j hj]
    by_cases hjc : j = c
    · subst hjc
      rw [getCell_setRaw_eq b r j v hrL hcL, List.getElem?_set_self (by omega)]
    · rw [getCell_setRaw_ne b r c v r j (Or.inr hjc),
        List.getElem?_set_ne (fun h => hjc h.symm), rowCells_getElem _ r j hj]
  · rw [List.getElem?_eq_none (by rw [rowCells, List.length_map, List.length_range]; omega),
      List.getElem?_eq_none (by rw [List.length_set]; omega)]

/-- A single-cell write leaves every other column view untouched. -/
theorem colCells_setRaw_ne : ∀ (b : Board) (r c : Nat) (v : Cell) (i : Nat), i ≠ c →
    colCells (setRaw b r c v) i = colCells b i := by
  intro b r c v i hi
  rw [colCells, colCells]
  apply List.map_congr_left
  intro j _
  exact getCell_setRaw_ne b r c v j i (Or.inr hi)

/-- A single-cell write updates its own column view pointwise. -/
theorem colCells_setRaw_self : ∀ (b : Board) (r c : Nat) (v : Cell),
    r < b.cells.length → c < (b.cells.getD r []).length → r < 9 →
    colCells (setRaw b r c v) c = (colCells b c).set r v := by
  intro b r c v hrL hcL hr9
  have hlen : (colCells b c).length = 9 := by
    rw [colCells, List.length_map, List.length_range]
  apply List.ext_getElem?
  intro j
  by_cases hj : j < 9
  · rw [colCells_getElem _ c j hj]
    by_cases hjr : j = r
    · subst hjr
      rw [getCell_setRaw_eq b j c v hrL hcL, List.getElem?_set_self (by omega)]
    · rw [getCell_setRaw_ne b r c v j c (Or.inl hjr),
        List.getElem?_set_ne (fun h => hjr h.symm), colCells_getElem _ c j hj]
  · rw [List.getElem?_eq_none (by rw [colCells, List.length_map, List.length_range]; omega),
      List.getElem?_eq_none (by rw [List.length_set]; omega)]

/-- A single-cell write leaves every other subsquare view untouched. -/
theorem ssCells_setRaw_ne : ∀ (b : Board) (r c : Nat) (v : Cell) (sr sc : Nat),
    sr < 3 → sc < 3 → (sr ≠ r / 3 ∨ sc ≠ c / 3) →
    ssCells (setRaw b r c v) sr sc = ssCells b sr sc := by
  intro b r c v sr sc hsr hsc hne
  rw [ssCells, ssCells]
  apply List.map_congr_left
  intro j hj
  have hj9 : j < 9 := List.mem_range.mp hj
  apply getCell_setRaw_ne
  omega

/-- A single-cell write updates its own subsquare view pointwise, at the
view index that addresses the written cell. -/
theorem ssCells_setRaw_self : ∀ (b : Board) (r c : Nat) (v : Cell),
    r < b.cells.length → c < (b.cells.getD r []).length → r < 9 → c < 9 →
    ssCells (setRaw b r c v) (r / 3) (c / 3) =
      (ssCells b (r / 3) (c / 3)).set (r % 3 * 3 + c % 3) v := by
  intro b r c v hrL hcL hr9 hc9
  have hlen : (ssCells b (r / 3) (c / 3)).length = 9 := by
    rw [ssCells, List.length_map, List.length_range]
  apply List.ext_getElem?
  intro j
  by_cases hj : j < 9
  · rw [ssCells_getElem _ _ _ j hj]
    by_cases hjx : j = r % 3 * 3 + c % 3
    · subst hjx
      have e1 : r / 3 * 3 + (r % 3 * 3 + c % 3) / 3 = r := by omega
      have e2 : c / 3 * 3 + (r % 3 * 3 + c % 3) % 3 = c := by omega
      rw [e1, e2, getCell_setRaw_eq b r c v hrL hcL, List.getElem?_set_self (by omega)]
    · have hne : r / 3 * 3 + j / 3 ≠ r ∨ c / 3 * 3 + j % 3 ≠ c := by omega
      rw [getCell_setRaw_ne b r c v _ _ hne,
        List.getElem?_set_ne (fun h => hjx h.symm), ssCells_getElem _ _ _ j hj]
  · rw [List.getElem?_eq_none (by rw [ssCells, List.length_map, List.length_range]; omega),
      List.getElem?_eq_none (by rw [List.length_set]; omega)]

/-- A digit whose bit survives a view's availability mask is not fixed
anywhere in that view. -/
theorem maskView_testBit_not_mem : ∀ (l : List Cell),
    (∀ w ∈ valuesOf l, 1 ≤ w ∧ w ≤ 9) → (valuesOf l).Nodup →
    ∀ d, 1 ≤ d → d ≤ 9 → (maskView l).testBit (d - 1) = true → d ∉ valuesOf l := by
  intro l hdg hnd d h1 h9 htb
  rw [maskView, maskGo_eq_maskVals] at htb
  have hALLbit : ∀ w ∈ valuesOf l, ALL.testBit (w - 1) = true := by
    intro w hw
    have hb := hdg w hw
    rw [ALL, Nat.one_shiftLeft, Nat.testBit_two_pow_sub_one]
    simp only [decide_eq_true_eq]
    omega
  have h := (maskVals_testBit (valuesOf l) ALL hdg hnd hALLbit (d - 1)).mp htb
  exact (forall_sub_one_ne_iff (valuesOf l) hdg d h1 h9).mp h.2

/-- A bit of the exclusion mask is a bit of all three view masks. -/
theorem exclMask_testBit : ∀ (b : Board) (r c i : Nat),
    (exclMask b r c).testBit i = true ↔
      ((maskView (rowCells b r)).testBit i = true ∧
       (maskView (colCells b c)).testBit i = true ∧
       (maskView (ssCells b (r / 3) (c / 3))).testBit i = true) := by
  intro b r c i
  rw [exclMask, Nat.testBit_land, Nat.testBit_land, Bool.and_eq_true, Bool.and_eq_true]
  tauto

/-- Writing a digit 1..9 preserves the digit invariant. -/
theorem wfDigits_setValue : ∀ (b : Board) (r c v : Nat),
    WfDigits b → 1 ≤ v → v ≤ 9 → WfDigits (setRaw b r c (.Value v)) := by
  intro b r c v hwf h1 h9 rc hrc
  by_cases hx : rc.1 = r ∧ rc.2 = c
  · obtain ⟨hx1, hx2⟩ := hx
    by_cases hin : r < b.cells.length ∧ c < (b.cells.getD r []).length
    · rw [hx1, hx2, getCell_setRaw_eq b r c _ hin.1 hin.2]
      simp only [cellDigitOk, Bool.and_eq_true, decide_eq_true_eq]
      omega
    · rw [setRaw_oob b r c _ hin]
      exact hwf rc hrc
  · rw [getCell_setRaw_ne b r c _ rc.1 rc.2 (by tauto)]
    exact hwf rc hrc

/-- Fixing, in place of an `Options` cell, a digit absent from the cell's
row, column and block keeps every view duplicate-free. -/
theorem noDups_setValue : ∀ (b : Board) (r c o v : Nat),
    r < b.cells.length → c < (b.cells.getD r []).length → r < 9 → c < 9 →
    getCell b r c = .Options o → noDups b →
    v ∉ valuesOf (rowCells b r) → v ∉ valuesOf (colCells b c) →
    v ∉ valuesOf (ssCells b (r / 3) (c / 3)) →
    noDups (setRaw b r c (.Value v)) := by
  intro b r c o v hrL hcL hr9 hc9 ho hnd hvr hvc hvs
  obtain ⟨hndr, hndc, hnds⟩ := hnd
  refine ⟨?_, ?_, ?_⟩
  · intro i hi
    by_cases hir : i = r
    · subst hir
      rw [rowCells_setRaw_self b i c _ hrL hcL hc9]
      exact nodup_valuesOf_set _ c o v (by rw [rowCells_getElem b i c hc9, ho])
        (hndr i hi) hvr
    · rw [rowCells_setRaw_ne b r c _ i hir]
      exact hndr i hi
  · intro i hi
    by_cases hic : i = c
    · subst hic
      rw [colCells_setRaw_self b r i _ hrL hcL hr9]
      exact nodup_valuesOf_set _ r o v (by rw [colCells_getElem b i r hr9, ho])
        (hndc i hi) hvc
    · rw [colCells_setRaw_ne b r c _ i hic]
      exact hndc i hi
  · intro i hi
    have hi9 := List.mem_range.mp hi
    by_cases hib : i / 3 = r / 3 ∧ i % 3 = c / 3
    · rw [hib.1, hib.2, ssCells_setRaw_self b r c _ hrL hcL hr9 hc9]
      have hnds' : (valuesOf (ssCells b (r / 3) (c / 3))).Nodup := by
        have h := hnds i hi
        rw [hib.1, hib.2] at h
        exact h
      refine nodup_valuesOf_set _ _ o v ?_ hnds' hvs
      rw [ssCells_getElem b (r / 3) (c / 3) (r % 3 * 3 + c % 3) (by omega)]
      have e1 : r / 3 * 3 + (r % 3 * 3 + c % 3) / 3 = r := by omega
      have e2 : c / 3 * 3 + (r % 3 * 3 + c % 3) % 3 = c := by omega
      rw [e1, e2, ho]
    · rw [ssCells_setRaw_ne b r c _ (i / 3) (i % 3) (by omega) (by omega) (by tauto)]
      exact hnds i hi

/-- C10: when solve reaches the branching step — the board validated and
the last sweep returned a positive remaining count with the changed flag
false — fixing any candidate digit of the chosen branch cell passes the
post-assignment whole-board validation, so the error-propagating branch
of the speculator's `set` call is unreachable: the stalled sweep has
already narrowed every candidates cell to digits not fixed anywhere in
its row, column or block. -/
theorem C10_branch_set_safe : ∀ (b0 b : Board) (n o v : Nat),
    WfDigits b0 → solveOne b0 = (b, .ok (n, false)) → 0 < n →
    getCell b (pickBranch b).1 (pickBranch b).2.1 = .Options o →
    1 ≤ v → v ≤ 9 → o.testBit (v - 1) = true →
    (Board.set b (pickBranch b).1 (pickBranch b).2.1 (.Value v)).2 = .ok () := by
  intro b0 b n o v hwf hstall hn ho h1 h9 htb
  obtain ⟨hbb, hchk, hfix⟩ := solveOne_stall b0 b n hstall
  subst hbb
  have hlt := pickBranch_lt b
  rcases hpb : pickBranch b with ⟨r, rest⟩
  rcases rest with ⟨c, k⟩
  rw [hpb] at ho hlt
  have hr9 : r < 9 := hlt.1
  have hc9 : c < 9 := hlt.2
  have hoopt : (getCell b r c).isOptions = true := by
    show (getCell b (r, c, k).1 (r, c, k).2.1).isOptions = true
    rw [ho]
    rfl
  obtain ⟨hrL, hcL⟩ := isOptions_inRange b r c hoopt
  have hnd : noDups b := (check_ok_iff b hwf).mp hchk
  have hfx := hfix r c hr9 hc9 o ho
  have hexb : (exclMask b r c).testBit (v - 1) = true := by
    have hx : o.testBit (v - 1) = (o &&& exclMask b r c).testBit (v - 1) := by
      rw [hfx]
    rw [Nat.testBit_land, htb] at hx
    simpa using hx.symm
  obtain ⟨hbr, hbc, hbs⟩ := (exclMask_testBit b r c (v - 1)).mp hexb
  obtain ⟨hndr, hndc, hnds⟩ := hnd
  have hvr : v ∉ valuesOf (rowCells b r) :=
    maskView_testBit_not_mem _ (wf_view_digits_row b hwf r hr9)
      (hndr r (List.mem_range.mpr hr9)) v h1 h9 hbr
  have hvc : v ∉ valuesOf (colCells b c) :=
    maskView_testBit_not_mem _ (wf_view_digits_col b hwf c hc9)
      (hndc c (List.mem_range.mpr hc9)) v h1 h9 hbc
  have hssnd : (valuesOf (ssCells b (r / 3) (c / 3))).Nodup := by
    have hidx : (r / 3 * 3 + c / 3) ∈ List.range 9 := List.mem_range.mpr (by omega)
    have h := hnds _ hidx
    have e1 : (r / 3 * 3 + c / 3) / 3 = r / 3 := by omega
    have e2 : (r / 3 * 3 + c / 3) % 3 = c / 3 := by omega
    rw [e1, e2] at h
    exact h
  have hvs : v ∉ valuesOf (ssCells b (r / 3) (c / 3)) :=
    maskView_testBit_not_mem _
      (wf_view_digits_ss b hwf (r / 3) (c / 3) (by omega) (by omega))
      hssnd v h1 h9 hbs
  have hwf' : WfDigits (setRaw b r c (.Value v)) := wfDigits_setValue b r c v hwf h1 h9
  have hnd' : noDups (setRaw b r c (.Value v)) :=
    noDups_setValue b r c o v hrL hcL hr9 hc9 ho ⟨hndr, hndc, hnds⟩ hvr hvc hvs
  show (setRaw b r c (.Value v)).check = .ok ()
  exact (check_ok_iff _ hwf').mpr hnd'

/-- Witness for C10 on the stalled deadly-rectangle board: fixing the
candidate 1 in the selected branch cell passes validation. -/
theorem C10_witness :
    (Board.set stall4 (pickBranch stall4).1 (pickBranch stall4).2.1 (.Value 1)).2
      = .ok () :=
  C10_branch_set_safe stall4 stall4 4 3 1 (by unfold WfDigits; decide) (by decide)
    (by decide) (by decide) (by decide) (by decide) (by decide)

end Sudoku
